import Mathlib

/-!
# Cx: growable sequence, string builder, lexer skeleton and driver

A shallow embedding of `src/array.h`, `src/string.c`, `src/lexer.c` and
`src/main.c`.

Conventions of the embedding:

* a C `int` is an `Int`; an arithmetic step whose mathematical result leaves
  the 32-bit range is signed overflow, which C leaves undefined, and the
  embedded function returns `none` there (`int_of`);
* a heap block obtained from `malloc` is a list with one cell per element; a
  cell is `none` while its content is indeterminate;
* a read or write outside a block, and any other undefined behaviour, is
  `none`; `malloc` itself is taken to succeed.
-/

namespace Cx

/-! ## C integers -/

/-- Largest `int`. -/
def INT_MAX : Int := 2147483647

/-- Smallest `int`. -/
def INT_MIN : Int := -2147483648

/-- Result of an `int` computation: the value when it is representable,
`none` (signed overflow) otherwise. -/
def int_of (x : Int) : Option Int :=
  if INT_MIN ≤ x ∧ x ≤ INT_MAX then some x else none

/-! ## `array.h`: the macro `array_of(T, name)` -/

/-- The struct generated by `array_of(T, name)`: `length`, `capacity` and the
block `data` points to. -/
structure array_of (T : Type) where
  length : Int
  capacity : Int
  data : List (Option T)
deriving DecidableEq

/-- Embedding of `init_##name`: length 0, capacity 255, a fresh block of 255
cells. -/
def array_init (T : Type) : array_of T :=
  { length := 0, capacity := 255, data := List.replicate 255 none }

/-- The growth branch of `name##_push`: `new_capacity = capacity*2`, a fresh
block of that many cells, `memcpy` of `length` cells, then the two field
updates.  A negative `new_capacity` becomes, as a `size_t`, a request no
allocator can serve; `memcpy` must stay inside both blocks. -/
def array_grow {T : Type} (arr : array_of T) : Option (array_of T) :=
  match int_of (arr.capacity * 2) with
  | none => none
  | some new_capacity =>
    if new_capacity < 0 then none
    else if arr.length < 0 ∨ (arr.data.length : Int) < arr.length
        ∨ new_capacity < arr.length then none
    else
      some { length := arr.length
             capacity := new_capacity
             data := arr.data.take arr.length.toNat
                      ++ List.replicate (new_capacity - arr.length).toNat none }

/-- The statement `arr->data[arr->length++] = obj`. -/
def array_store {T : Type} (arr : array_of T) (obj : T) : Option (array_of T) :=
  if 0 ≤ arr.length ∧ arr.length < (arr.data.length : Int) then
    match int_of (arr.length + 1) with
    | none => none
    | some n =>
      some { length := n
             capacity := arr.capacity
             data := arr.data.set arr.length.toNat (some obj) }
  else none

/-- Embedding of `name##_push`. -/
def array_push {T : Type} (arr : array_of T) (obj : T) : Option (array_of T) :=
  if arr.length ≥ arr.capacity then
    match array_grow arr with
    | none => none
    | some grown => array_store grown obj
  else array_store arr obj

/-- Embedding of `name##_get`: the content of cell `n` of the block. -/
def array_get {T : Type} (arr : array_of T) (n : Nat) : Option T :=
  match arr.data.get? n with
  | some (some v) => some v
  | _ => none

/-- `init_##name()` followed by one `name##_push` per element, in order. -/
def array_push_all {T : Type} (arr : array_of T) (objs : List T) :
    Option (array_of T) :=
  objs.foldlM array_push arr

/-- Largest capacity the doubling from 255 reaches inside the `int` range,
`255 * 2^23`; doubling it once more overflows.  The sequence and the string
builder share it. -/
def CAPACITY_LIMIT : Nat := 2139095040

/-! ## Pointers and bytes -/

/-- A `char`: one byte. -/
abbrev char := Fin 256

/-- A pointer to heap storage of element type `α`: the null pointer, a
pointer whose block has been passed to `free`, or a pointer to a live block
with its cells. -/
inductive pointer (α : Type) where
  | null : pointer α
  | freed : pointer α
  | block (cells : List (Option α)) : pointer α
deriving DecidableEq

/-- The library call `free(p)`: nothing for the null pointer, releases a live
block, undefined for a pointer that was already released. -/
def free {α : Type} : pointer α → Option (pointer α)
  | .null => some .null
  | .freed => none
  | .block _ => some .freed

/-- The C string that starts at the first cell of a block: the bytes before
the first zero byte; `none` when an indeterminate cell or the end of the
block comes first. -/
def cstr : List (Option char) → Option (List char)
  | [] => none
  | none :: _ => none
  | some b :: rest => if b = 0 then some [] else (cstr rest).map (fun t => b :: t)

/-! ## `string.h`, `string.c` -/

/-- The struct `string` of `string.h`. -/
structure string where
  buffer : pointer char
  len : Int
  cap : Int
deriving DecidableEq

/-- A zero-initialised `struct string` (`= {0}`). -/
def string_zero : string := { buffer := .null, len := 0, cap := 0 }

/-- Embedding of `init_string`: the three assignments; the previous value of
`buffer` is overwritten. -/
def init_string (_s : string) : string :=
  { len := 0, cap := 255, buffer := .block (List.replicate 255 none) }

/-- The growth branch of `string_append_char`: `new_cap = cap*2`, a fresh
block, `memcpy` of `len` bytes out of the old block, `free` of the old block,
then the two field updates. -/
def string_grow (s : string) : Option string :=
  match int_of (s.cap * 2) with
  | none => none
  | some new_cap =>
    match s.buffer with
    | .block cells =>
      if s.len < 0 ∨ (cells.length : Int) < s.len ∨ new_cap < s.len then none
      else
        some { buffer := .block (cells.take s.len.toNat
                          ++ List.replicate (new_cap - s.len).toNat none)
               len := s.len
               cap := new_cap }
    | _ => none

/-- The statement `s->buffer[s->len++] = c`. -/
def string_store (s : string) (c : char) : Option string :=
  match s.buffer with
  | .block cells =>
    if 0 ≤ s.len ∧ s.len < (cells.length : Int) then
      match int_of (s.len + 1) with
      | none => none
      | some n => some { buffer := .block (cells.set s.len.toNat (some c))
                         len := n
                         cap := s.cap }
    else none
  | _ => none

/-- Embedding of `string_append_char`. -/
def string_append_char (s : string) (c : char) : Option string :=
  let s1 := if s.cap ≤ 0 then init_string s else s
  if s1.len ≥ s1.cap then
    match string_grow s1 with
    | none => none
    | some grown => string_store grown c
  else string_store s1 c

/-- A sequence of `string_append_char` calls, one per byte, in order. -/
def string_append_chars (s : string) (bytes : List char) : Option string :=
  bytes.foldlM string_append_char s

/-- The loop `while (str[n]) string_append_char(string, str[n++])` of
`string_append`, over the cells of `str` from index `n` on.  Running off the
end of `str` is a read outside the block. -/
def string_append_loop (s : string) : List char → Option string
  | [] => none
  | b :: rest =>
    if b = 0 then some s
    else
      match string_append_char s b with
      | none => none
      | some s1 => string_append_loop s1 rest

/-- Embedding of `string_append`.  The variadic formatting is a parameter:
`formatted` is the byte sequence the format and its arguments expand to.
`vsnprintf(NULL, 0, ...)` returns its length in `size`, `str` is a block of
`size + 1` bytes, and `vsprintf` fills it with `formatted` followed by a zero
byte. -/
def string_append (s : string) (formatted : List char) : Option string :=
  let s1 := if s.cap ≤ 0 then init_string s else s
  match int_of (formatted.length : Int) with
  | none => none
  | some size =>
    match int_of (size + 1) with
    | none => none
    | some _ => string_append_loop s1 (formatted ++ [0])

/-- The bytes of a formatted result that come before its first zero byte
(all of them when it has none). -/
def before_zero : List char → List char
  | [] => []
  | b :: rest => if b = 0 then [] else b :: before_zero rest

/-- Embedding of `string_free` for a non-null `s` (for a null `s` the guard
`if (s)` skips the body). -/
def string_free (s : string) : Option string :=
  match free s.buffer with
  | none => none
  | some p => some { buffer := p, len := 0, cap := 0 }

/-- Embedding of `string_to_cstr`: the cells of the block the returned
pointer points to, and the builder after the call.  The write
`buf[string->len] = 0` must fall inside the block. -/
def string_to_cstr (s : string) : Option (List (Option char) × string) :=
  let s1 := if s.cap ≤ 0 then init_string s else s
  match s1.buffer with
  | .block cells =>
    if 0 ≤ s1.len ∧ s1.len < (cells.length : Int) then
      let written := cells.set s1.len.toNat (some 0)
      some (written, { s1 with buffer := .block written })
    else none
  | _ => none

/-- The values of a run of cells, when every one of them is determinate. -/
def determinate {α : Type} : List (Option α) → Option (List α)
  | [] => some []
  | none :: _ => none
  | some a :: rest => (determinate rest).map (fun t => a :: t)

/-- The bytes a builder currently holds: the first `len` cells of its
block (nothing while `cap ≤ 0`, where the next use re-initialises). -/
def string_contents (s : string) : Option (List char) :=
  if s.cap ≤ 0 then some []
  else
    match s.buffer with
    | .block cells =>
      if 0 ≤ s.len ∧ s.len ≤ (cells.length : Int) then
        determinate (cells.take s.len.toNat)
      else none
    | _ => none

/-! ## `lexer.h`, `lexer.c` -/

/-- The struct `sloc` of `lexer.h`. -/
structure sloc where
  begin_line : Int
  end_line : Int
  begin_col : Int
  end_col : Int
  file_name : Option String
deriving DecidableEq

/-- The enum `token_type` of `lexer.h`, in declaration order (`TINT` is the
value 0). -/
inductive token_type where
  | TINT | TCHAR | TVOID | TLONG | TDOUBLE
  | TUNSIGNED | TSIGNED | TSHORT
  | TSTRUCT | TENUM | TCONST
  | TINT_LIT | TSTRING_LIT | TCHAR_LIT
  | TLPAREN | TRPAREN | TLBRACE | TRBRACE
  | TCOMMA | TSEMI | TCOLON
  | TLSBRACE
  | TRSBRACE
  | TADD | TSUB
  | TMUL | TDIV
  | TE | TEQ_EQ
  | TEOF
deriving DecidableEq

/-- The struct `token` of `lexer.h`; `data` is a pointer to a C string and
may be null. -/
structure token where
  type : token_type
  location : sloc
  data : Option String
deriving DecidableEq

/-- The instance `array_of(struct token, token_list)`. -/
abbrev token_list := array_of token

/-- Enumerator `LEX_ERR_NO_SUCH_FILE` of `enum lex_error`: the value 0. -/
def LEX_ERR_NO_SUCH_FILE : Int := 0

/-- Enumerator `LEX_ERR_NONE` of `enum lex_error`: the value 1. -/
def LEX_ERR_NONE : Int := 1

/-- What the file system holds at a path: nothing, an entry that `stat`
finds but `fopen(p, "rb")` cannot open, or a file with its bytes. -/
inductive file_entry where
  | absent : file_entry
  | unopenable : file_entry
  | readable (bytes : List char) : file_entry
deriving DecidableEq

/-- The file system: the entry at each path. -/
abbrev file_system := String → file_entry

/-- Embedding of `file_exists` (`main.c`): `stat(path, &tmp) == 0`. -/
def file_exists (fs : file_system) (path : String) : Bool :=
  match fs path with
  | .absent => false
  | _ => true

/-- The file-scope variables of `lexer.c`. -/
structure lexer_state where
  current_source : pointer char
  source_end : Int
  current_path : Option String
  current_token : token
  tokens : Option token_list
  lline : Int
  lcol : Int
  lpos : Int
  pline : Int
  pcol : Int
  ppos : Int
deriving DecidableEq

/-- The initial values of the file-scope variables of `lexer.c`:
`source_end` is kept as an offset from `current_source`. -/
def lexer_init : lexer_state :=
  { current_source := .null
    source_end := 0
    current_path := none
    current_token :=
      { type := .TINT
        location := { begin_line := 0, end_line := 0, begin_col := 0, end_col := 0,
                      file_name := none }
        data := none }
    tokens := none
    lline := 1
    lcol := 0
    lpos := 0
    pline := 1
    pcol := 0
    ppos := 0 }

/-- The conversion of a `long` to `int` (`int size = ftell(f)`): reduction
modulo `2^32` into the `int` range. -/
def long_to_int (x : Int) : Int := (x + 2147483648) % 4294967296 - 2147483648

/-- Embedding of `init_lexer`: the returned `int` and the variables after
the call.  When `fopen` fails the code calls `fclose` on the null stream,
which is undefined.  A negative `size` makes `malloc` fail and `fread` write
through the null pointer. -/
def init_lexer (fs : file_system) (p : String) (st : lexer_state) :
    Option (Int × lexer_state) :=
  if !file_exists fs p then some (LEX_ERR_NO_SUCH_FILE, st)
  else
    match fs p with
    | .readable bytes =>
      let size := long_to_int (bytes.length : Int)
      if size < 0 then none
      else
        some (LEX_ERR_NONE,
          { st with
            current_source := .block ((bytes.take size.toNat).map some)
            source_end := size
            current_path := some p
            tokens := some (array_init token) })
    | _ => none

/-- Embedding of `save_lexer_position`. -/
def save_lexer_position (st : lexer_state) : lexer_state :=
  { st with pline := st.lline, pcol := st.lcol, ppos := st.lpos }

/-- Embedding of `get_current_location`; `lcol - 1` is `int` arithmetic. -/
def get_current_location (st : lexer_state) : Option sloc :=
  match int_of (st.lcol - 1) with
  | none => none
  | some end_col =>
    some { begin_line := st.pline
           end_line := st.lline
           begin_col := st.pcol
           end_col := end_col
           file_name := none }

/-- Embedding of `get_token`. -/
def get_token (st : lexer_state) (data : Option String) (type : token_type) :
    Option token :=
  match get_current_location st with
  | none => none
  | some loc => some { type := type, location := loc, data := data }

/-- The struct `compile_options` of `compiler.h`; `input_paths` is a pointer
to a `string_vec` and may be null, `output_path` a pointer to a C string. -/
structure compile_options where
  input_paths : Option (array_of String)
  output_path : Option String
deriving DecidableEq

/-- Embedding of `lex_source_file`: the returned `enum lex_error` and the
variables after the call. -/
def lex_source_file (fs : file_system) (path : String) (_opt : compile_options)
    (st : lexer_state) : Option (Int × lexer_state) :=
  match init_lexer fs path st with
  | none => none
  | some (err, st1) =>
    if err ≠ LEX_ERR_NONE then some (err, st1)
    else some (LEX_ERR_NONE, st1)

/-- Embedding of `get_tokens`. -/
def get_tokens (st : lexer_state) : Option token_list := st.tokens

/-- The bytes the specification calls whitespace: space, tab, newline,
carriage return. -/
def is_whitespace (b : char) : Bool := b = 32 || b = 9 || b = 10 || b = 13

/-- States of the lexer variables that the operations of `lexer.c` can
produce, starting from the initial values. -/
inductive lexer_reachable : lexer_state → Prop where
  | init : lexer_reachable lexer_init
  | save (st : lexer_state) : lexer_reachable st →
      lexer_reachable (save_lexer_position st)
  | lex (fs : file_system) (path : String) (opt : compile_options)
      (st st1 : lexer_state) (err : Int) : lexer_reachable st →
      lex_source_file fs path opt st = some (err, st1) → lexer_reachable st1

/-! ## `main.c`: argument parsing -/

/-- How a call ends: it returns a value, or it ends the process through
`exit` with a status. -/
inductive outcome (α : Type) where
  | returned (value : α) : outcome α
  | exited (status : Int) : outcome α
deriving DecidableEq

/-- The call `string_vec_push(options.input_paths, p)`: a push through the
pointer `input_paths`, undefined when it is null. -/
def push_input_path (options : compile_options) (p : String) :
    Option compile_options :=
  match options.input_paths with
  | none => none
  | some paths =>
    match array_push paths p with
    | none => none
    | some paths1 => some { options with input_paths := some paths1 }

/-- The test `*arg && *arg == '-'`: the string has a first character and it
is a dash. -/
def starts_with_dash (arg : String) : Bool :=
  match arg.data with
  | [] => false
  | c :: _ => c = '-'

/-- The loop `while (index < argc)` of `parse_arguments`, over the arguments
from `argv[index]` on: the returned `int` and the options after it.  Messages
written to the standard streams are left out. -/
def parse_loop : List String → compile_options → Option (Int × compile_options)
  | [], options => some (0, options)
  | arg :: rest, options =>
    if arg = "-i" then
      match rest with
      | [] => some (1, options)
      | value :: rest1 =>
        match push_input_path options value with
        | none => none
        | some options1 => parse_loop rest1 options1
    else if arg = "-o" then
      match rest with
      | [] => some (1, options)
      | value :: rest1 => parse_loop rest1 { options with output_path := some value }
    else if starts_with_dash arg then some (1, options)
    else
      match push_input_path options arg with
      | none => none
      | some options1 => parse_loop rest options1

/-- Embedding of `parse_arguments`: `argv` is the whole vector, program name
first, and `options` the global the driver filled from
`create_compile_options()` before the call.  With `argc == 1` the function
prints the usage text and calls `exit(0)`. -/
def parse_arguments (argv : List String) (options : compile_options) :
    Option (outcome (Int × compile_options)) :=
  if argv.length = 1 then some (.exited 0)
  else
    match parse_loop (argv.drop 1) options with
    | none => none
    | some r => some (.returned r)

/-- The options the claims start from: an empty input list as
`init_string_vec()` makes it, and a given output path. -/
def options_empty (output_path : Option String) : compile_options :=
  { input_paths := some (array_init String), output_path := output_path }

/-! ### The command line as the specification describes it -/

/-- One unit of a command line read left to right: `-i <path>`, `-o <path>`,
or a bare argument. -/
inductive cli_item where
  | input (path : String) : cli_item
  | output (path : String) : cli_item
  | bare (arg : String) : cli_item
deriving DecidableEq

/-- The arguments an item is written as. -/
def cli_item.words : cli_item → List String
  | .input path => ["-i", path]
  | .output path => ["-o", path]
  | .bare arg => [arg]

/-- A bare argument does not start with a dash; the value of `-i` or `-o`
is any string. -/
def cli_item.accepted : cli_item → Bool
  | .bare arg => !starts_with_dash arg
  | _ => true

/-- The arguments a list of items is written as. -/
def cli_words : List cli_item → List String
  | [] => []
  | item :: items => item.words ++ cli_words items

/-- The input paths of a list of items: the bare arguments and the values of
`-i`, in command-line order. -/
def cli_inputs : List cli_item → List String
  | [] => []
  | .input path :: items => path :: cli_inputs items
  | .bare arg :: items => arg :: cli_inputs items
  | .output _ :: items => cli_inputs items

/-- The output path after a list of items: the value of the last `-o`, the
given one when there is none. -/
def cli_output : List cli_item → Option String → Option String
  | [], out => out
  | .output path :: items, _ => cli_output items (some path)
  | _ :: items, out => cli_output items out

/-! ## `main.c`: the driver -/

/-- The pointer `strrchr(p, '.') + 1`: the characters after the last dot of
`p`, `none` when `p` has no dot (`strrchr` returns null). -/
def after_last_dot : List Char → Option (List Char)
  | [] => none
  | c :: rest =>
    match after_last_dot rest with
    | some e => some e
    | none => if c = '.' then some rest else none

/-- Embedding of `extension`: a copy of the characters after the last dot,
the empty string when there is no dot. -/
def extension (p : String) : String :=
  match after_last_dot p.data with
  | some e => String.mk e
  | none => ""

/-- The test `!strcmp(extension(input_path), "c")` of the driver loop. -/
def is_c_path (input_path : String) : Bool := extension input_path = "c"

/-- What a run of `main` does: the paths `lex_source_file` was called on, in
call order, and how the run ends; `none` stands for undefined behaviour. -/
structure driver_run where
  lexed : List String
  result : Option (outcome Int)
deriving DecidableEq

/-- The loop `for (int n = 0; n < options.input_paths->length; n++)` of
`main`, from index `n` on with `remaining = length - n` rounds to go: the
paths `lex_source_file` was called on and the value `main` returns (`none`
for undefined behaviour).  Falling off the end of `main` returns 0.  The
messages of `error` are left out. -/
def lex_input_paths (fs : file_system) (options : compile_options)
    (paths : array_of String) :
    Nat → Nat → lexer_state → List String × Option Int
  | 0, _, _ => ([], some 0)
  | remaining + 1, n, st =>
    match array_get paths n with
    | none => ([], none)
    | some input_path =>
      if is_c_path input_path then
        match lex_source_file fs input_path options st with
        | none => ([input_path], none)
        | some (err, st1) =>
          if err ≠ LEX_ERR_NONE then ([input_path], some 1)
          else
            let r := lex_input_paths fs options paths remaining (n + 1) st1
            (input_path :: r.1, r.2)
      else lex_input_paths fs options paths remaining (n + 1) st

/-- Embedding of `main`: `argv` is the whole vector, `options0` the value of
`create_compile_options()`, and the lexer variables start from their initial
values. -/
def main (fs : file_system) (argv : List String) (options0 : compile_options) :
    driver_run :=
  match parse_arguments argv options0 with
  | none => { lexed := [], result := none }
  | some (.exited status) => { lexed := [], result := some (.exited status) }
  | some (.returned (code, options)) =>
    if code ≠ 0 then { lexed := [], result := some (.returned 1) }
    else
      match options.input_paths with
      | none => { lexed := [], result := none }
      | some paths =>
        let r := lex_input_paths fs options paths paths.length.toNat 0 lexer_init
        { lexed := r.1, result := r.2.map (fun status => outcome.returned status) }

/-! ### The driver as the specification describes it -/

/-- A file `lex_source_file` gets through: it opens and the size `ftell`
reports is not negative as an `int`. -/
def lexes (fs : file_system) (path : String) : Bool :=
  match fs path with
  | .readable bytes => decide (0 ≤ long_to_int (bytes.length : Int))
  | _ => false

/-- Calling `lex_source_file` on every path of a list, in order, until a call
does not return `LEX_ERR_NONE`: the paths it was called on and the status. -/
def lex_each (fs : file_system) (options : compile_options) :
    List String → lexer_state → List String × Option Int
  | [], _ => ([], some 0)
  | p :: rest, st =>
    match lex_source_file fs p options st with
    | none => ([p], none)
    | some (err, st1) =>
      if err ≠ LEX_ERR_NONE then ([p], some 1)
      else
        let r := lex_each fs options rest st1
        (p :: r.1, r.2)

/-- Reading `argv[1..]` left to right, each `-i` and `-o` in flag position
consuming the next argument as its value whatever it looks like: whether the
reading reaches a `-i` or `-o` with no argument after it, or an argument in
flag position that starts with a dash and is neither `-i` nor `-o`. -/
def cli_rejected : List String → Bool
  | [] => false
  | arg :: rest =>
    if arg = "-i" ∨ arg = "-o" then
      match rest with
      | [] => true
      | _ :: rest1 => cli_rejected rest1
    else if starts_with_dash arg then true
    else cli_rejected rest

/-- Reading `argv[1..]` the same way: the input paths read before the end
of the arguments or the rejection, in order. -/
def cli_read_inputs : List String → List String
  | [] => []
  | arg :: rest =>
    if arg = "-i" then
      match rest with
      | [] => []
      | value :: rest1 => value :: cli_read_inputs rest1
    else if arg = "-o" then
      match rest with
      | [] => []
      | _ :: rest1 => cli_read_inputs rest1
    else if starts_with_dash arg then []
    else arg :: cli_read_inputs rest

/-! ## Representation invariants -/

/-- Representation invariant of a sequence that holds exactly `xs`:
`length` is the number of elements, `capacity` is `c = 255 * 2^k` for the
least `k` that makes room for them, and the block has `capacity` cells, the
first `length` of which are the elements in order. -/
def ArrayHolds {T : Type} (arr : array_of T) (xs : List T) : Prop :=
  arr.length = (xs.length : Int) ∧
  ∃ k c : Nat, k ≤ 23 ∧ c = 255 * 2 ^ k ∧ arr.capacity = (c : Int) ∧
    xs.length ≤ c ∧ (k = 0 ∨ c < 2 * xs.length) ∧
    arr.data = xs.map some ++ List.replicate (c - xs.length) none

/-- A builder with a live block of `cap` cells whose first `len` cells are
the bytes `xs`. -/
def StringLive (s : string) (xs : List char) : Prop :=
  ∃ cells, s.buffer = .block cells ∧ 0 < s.cap ∧ (cells.length : Int) = s.cap ∧
    s.len = (xs.length : Int) ∧ xs.length ≤ cells.length ∧
    cells.take xs.length = xs.map some

/-- A builder in a valid state that holds the bytes `xs`: either empty with
`cap ≤ 0` and `len = 0` (zero-initialised or released; the next use
re-initialises it), or live. -/
def StringHolds (s : string) (xs : List char) : Prop :=
  (s.cap ≤ 0 ∧ s.len = 0 ∧ xs = []) ∨ StringLive s xs

/-- The capacity a builder works with once it is in use: 255 after the lazy
initialisation of a builder with `cap ≤ 0`, its `cap` otherwise. -/
def string_working_cap (s : string) : Int := if s.cap ≤ 0 then 255 else s.cap

/-! ## Concrete inputs used by witnesses and counterexamples -/

/-- A file system whose only file, `ws.c`, holds a space, a tab and a
newline. -/
def whitespace_fs : file_system :=
  fun p => if p = "ws.c" then .readable [32, 9, 10] else .absent

/-- A cursor state with the live cursor at line 3, column 7 and the mark at
line 2, column 4. -/
def cursor_example : lexer_state :=
  { lexer_init with lline := 3, lcol := 7, lpos := 40, pline := 2, pcol := 4, ppos := 20 }

/-- A builder with a live block of two cells that holds the byte 65. -/
def string_small : string :=
  { buffer := .block [some 65, none], len := 1, cap := 2 }

/-- A builder filled to the capacity limit: a live block of `2139095040`
cells, `len = cap = 2139095040` (the state after that many appends of the
byte 65). -/
def string_full : string :=
  { buffer := .block (List.replicate 2139095040 (some 65))
    len := 2139095040
    cap := 2139095040 }

/-- A released builder: the state `string_free` leaves behind when the
builder had a live block. -/
def string_released : string := { buffer := .freed, len := 0, cap := 0 }

/-- The command line `a.c -i -x -o out a.c -o o2` as items. -/
def cli_example : List cli_item :=
  [.bare "a.c", .input "-x", .output "out", .bare "a.c", .output "o2"]

/-- A file system with the readable files `a.c`, `b.c` and `notes.txt`, the
entry `locked.c` that exists but does not open, and nothing else. -/
def driver_fs : file_system :=
  fun p =>
    if p = "a.c" then .readable [105, 110, 116]
    else if p = "b.c" then .readable []
    else if p = "notes.txt" then .readable [104, 105]
    else if p = "locked.c" then .unopenable
    else .absent

/-- The command line `a.c notes.txt x.C b.c` as items. -/
def driver_items : List cli_item :=
  [.bare "a.c", .bare "notes.txt", .bare "x.C", .bare "b.c"]

/-- The command line `a.c gone.c b.c` as items; `gone.c` does not exist in
`driver_fs`. -/
def missing_items : List cli_item := [.bare "a.c", .bare "gone.c", .bare "b.c"]

/-- The command line `a.c locked.c b.c` as items; `locked.c` exists in
`driver_fs` but does not open. -/
def locked_items : List cli_item := [.bare "a.c", .bare "locked.c", .bare "b.c"]


/-! ## Growable sequence: proofs -/

theorem int_of_eq_some {x : Int} (h1 : INT_MIN ≤ x) (h2 : x ≤ INT_MAX) :
    int_of x = some x := by
  simp [int_of, h1, h2]

theorem int_of_eq_none {x : Int} (h : INT_MAX < x) : int_of x = none := by
  have : ¬ x ≤ INT_MAX := not_le.mpr h
  simp [int_of, this]

/-- Writing cell `xs.length` of a block that holds `xs` followed by
indeterminate cells. -/
theorem block_set_next {T : Type} (xs : List T) (x : T) (m : Nat) :
    (xs.map some ++ List.replicate (m + 1) none).set xs.length (some x)
      = (xs ++ [x]).map some ++ List.replicate m none := by
  induction xs with
  | nil => simp [List.replicate_succ]
  | cons a as ih => simpa using ih

/-- Cell `i` of a block that holds `xs` followed by indeterminate cells. -/
theorem block_get {T : Type} (xs : List T) (m i : Nat) (h : i < xs.length) :
    (xs.map some ++ List.replicate m none).get? i = some (some (xs.get ⟨i, h⟩)) := by
  rw [List.get?_eq_getElem?, List.getElem?_append_left (by simpa using h)]
  simp [h]

theorem arrayHolds_init (T : Type) : ArrayHolds (array_init T) [] :=
  ⟨rfl, 0, 255, by decide, rfl, rfl, by simp, Or.inl rfl, rfl⟩

theorem pow_le_limit {k : Nat} (hk : k ≤ 23) : 255 * 2 ^ k ≤ CAPACITY_LIMIT := by
  have : 2 ^ k ≤ 2 ^ 23 := Nat.pow_le_pow_right (by decide) hk
  have h : 255 * 2 ^ k ≤ 255 * 2 ^ 23 := Nat.mul_le_mul_left _ this
  simpa [CAPACITY_LIMIT] using h

theorem array_store_holds {T : Type} (arr : array_of T) (xs : List T) (x : T)
    (c : Nat) (hc : c ≤ CAPACITY_LIMIT) (hlen : arr.length = (xs.length : Int))
    (hcap : arr.capacity = (c : Int)) (hlt : xs.length < c)
    (hdata : arr.data = xs.map some ++ List.replicate (c - xs.length) none) :
    array_store arr x = some
      { length := (xs.length : Int) + 1
        capacity := (c : Int)
        data := (xs ++ [x]).map some ++ List.replicate (c - (xs.length + 1)) none } := by
  have hdl : arr.data.length = c := by
    rw [hdata]; simp; omega
  have hin : 0 ≤ arr.length ∧ arr.length < (arr.data.length : Int) := by
    rw [hlen, hdl]; constructor <;> omega
  have hio : int_of (arr.length + 1) = some ((xs.length : Int) + 1) := by
    rw [hlen]
    apply int_of_eq_some
    · simp only [INT_MIN]; omega
    · simp only [INT_MAX, CAPACITY_LIMIT] at *; omega
  have hsplit : c - xs.length = (c - (xs.length + 1)) + 1 := by omega
  unfold array_store
  rw [if_pos hin, hio]
  simp only [hcap, hlen, Int.toNat_ofNat, hdata]
  rw [hsplit, block_set_next]

/-- One push onto a sequence that holds `xs`, below the limit. -/
theorem array_push_holds {T : Type} (arr : array_of T) (xs : List T) (x : T)
    (h : ArrayHolds arr xs) (hlt : xs.length < CAPACITY_LIMIT) :
    ∃ arr1, array_push arr x = some arr1 ∧ ArrayHolds arr1 (xs ++ [x]) := by
  obtain ⟨hlen, k, c, hk, hc, hcap, hle, hleast, hdata⟩ := h
  have hclim : c ≤ CAPACITY_LIMIT := hc ▸ pow_le_limit hk
  have hcpos : 0 < c := by rw [hc]; positivity
  by_cases hfull : xs.length = c
  · -- the block is full: grow, then store
    have hk1 : k + 1 ≤ 23 := by
      by_contra hcon
      have : k = 23 := by omega
      subst this
      simp only [CAPACITY_LIMIT] at hlt
      omega
    have hc2 : 2 * c = 255 * 2 ^ (k + 1) := by rw [hc]; ring
    have hlim : 2 * c ≤ CAPACITY_LIMIT := hc2 ▸ pow_le_limit hk1
    have hge : arr.length ≥ arr.capacity := by rw [hlen, hcap, hfull]
    have hio : int_of (arr.capacity * 2) = some ((2 * c : Nat) : Int) := by
      have : arr.capacity * 2 = ((2 * c : Nat) : Int) := by
        rw [hcap]; push_cast; ring
      rw [this]
      apply int_of_eq_some
      · simp only [INT_MIN]; omega
      · simp only [INT_MAX, CAPACITY_LIMIT] at *; omega
    have hgrow : array_grow arr = some
        { length := (xs.length : Int)
          capacity := ((2 * c : Nat) : Int)
          data := xs.map some ++ List.replicate (2 * c - xs.length) none } := by
      unfold array_grow
      rw [hio]
      have h1 : ¬ (((2 * c : Nat) : Int) < 0) := by omega
      have h2 : ¬ (arr.length < 0 ∨ (arr.data.length : Int) < arr.length
          ∨ ((2 * c : Nat) : Int) < arr.length) := by
        rw [hlen, hdata]
        simp only [List.length_append, List.length_map, List.length_replicate]
        omega
      simp only [h1, h2, if_false]
      rw [hlen, hdata]
      have e1 : (xs.length : Int).toNat = xs.length := Int.toNat_ofNat _
      have e2 : (((2 * c : Nat) : Int) - (xs.length : Int)).toNat = 2 * c - xs.length := by
        omega
      rw [e1, e2, List.take_left' (by simp)]
    have hp : array_push arr x = some
        { length := (xs.length : Int) + 1
          capacity := ((2 * c : Nat) : Int)
          data := (xs ++ [x]).map some
                    ++ List.replicate (2 * c - (xs.length + 1)) none } := by
      unfold array_push
      rw [if_pos hge, hgrow]
      exact array_store_holds _ xs x (2 * c) hlim rfl rfl (by omega) rfl
    refine ⟨_, hp, ?_⟩
    · refine ⟨by simp, k + 1, 2 * c, hk1, hc2, rfl, by simp; omega, Or.inr ?_, by simp⟩
      simp; omega
  · -- room left: store in place
    have hlt1 : xs.length < c := by omega
    have hnge : ¬ arr.length ≥ arr.capacity := by rw [hlen, hcap]; omega
    have hp : array_push arr x = some
        { length := (xs.length : Int) + 1
          capacity := (c : Int)
          data := (xs ++ [x]).map some
                    ++ List.replicate (c - (xs.length + 1)) none } := by
      unfold array_push
      rw [if_neg hnge]
      exact array_store_holds arr xs x c hclim hlen hcap hlt1 hdata
    refine ⟨_, hp, ?_⟩
    · refine ⟨by simp, k, c, hk, hc, rfl, by simp; omega, ?_, by simp⟩
      rcases hleast with h0 | h1
      · exact Or.inl h0
      · right; simp; omega

/-- A push onto a sequence that holds `CAPACITY_LIMIT` elements overflows the
doubling `capacity*2`. -/
theorem array_push_at_limit {T : Type} (arr : array_of T) (xs : List T) (x : T)
    (h : ArrayHolds arr xs) (hlen : xs.length = CAPACITY_LIMIT) :
    array_push arr x = none := by
  obtain ⟨hl, k, c, hk, hc, hcap, hle, hleast, hdata⟩ := h
  have hlim : c ≤ CAPACITY_LIMIT := hc ▸ pow_le_limit hk
  have hcapv : arr.capacity = (CAPACITY_LIMIT : Int) := by
    rw [hcap]; congr 1; omega
  have hge : arr.length ≥ arr.capacity := by rw [hl, hcapv, hlen]
  have hio : int_of (arr.capacity * 2) = none := by
    apply int_of_eq_none
    rw [hcapv]; simp [INT_MAX, CAPACITY_LIMIT]
  unfold array_push
  rw [if_pos hge]
  unfold array_grow
  rw [hio]

theorem array_push_all_append {T : Type} (arr : array_of T) (xs ys : List T) :
    array_push_all arr (xs ++ ys)
      = (array_push_all arr xs).bind (fun a => array_push_all a ys) := by
  simp [array_push_all, List.foldlM_append]

/-- Pushing `ys` onto a sequence that holds `xs`, staying within the limit. -/
theorem array_push_all_holds {T : Type} (ys : List T) :
    ∀ (arr : array_of T) (xs : List T), ArrayHolds arr xs →
      xs.length + ys.length ≤ CAPACITY_LIMIT →
      ∃ arr1, array_push_all arr ys = some arr1 ∧ ArrayHolds arr1 (xs ++ ys) := by
  induction ys with
  | nil =>
    intro arr xs h _
    exact ⟨arr, rfl, by simpa using h⟩
  | cons y ys ih =>
    intro arr xs h hle
    simp only [List.length_cons] at hle
    obtain ⟨a1, hp, hh⟩ := array_push_holds arr xs y h (by omega)
    obtain ⟨a2, hp2, hh2⟩ := ih a1 (xs ++ [y]) hh (by simp; omega)
    refine ⟨a2, ?_, by simpa using hh2⟩
    simp only [array_push_all, List.foldlM_cons, hp]
    exact hp2

/-- Reading back from a sequence that holds `xs`. -/
theorem array_get_holds {T : Type} (arr : array_of T) (xs : List T)
    (h : ArrayHolds arr xs) (i : Nat) (hi : i < xs.length) :
    array_get arr i = some (xs.get ⟨i, hi⟩) := by
  obtain ⟨_, k, c, _, _, _, _, _, hdata⟩ := h
  unfold array_get
  rw [hdata, block_get xs _ i hi]

/-- Once a push has failed the run has no result. -/
theorem array_push_all_none {T : Type} (arr : array_of T) (xs : List T)
    (h : ArrayHolds arr xs) (ys : List T)
    (hgt : CAPACITY_LIMIT < xs.length + ys.length) (hle : xs.length ≤ CAPACITY_LIMIT) :
    array_push_all arr ys = none := by
  have hsplit : ys = ys.take (CAPACITY_LIMIT - xs.length) ++ ys.drop (CAPACITY_LIMIT - xs.length) :=
    (List.take_append_drop _ _).symm
  have htl : (ys.take (CAPACITY_LIMIT - xs.length)).length = CAPACITY_LIMIT - xs.length := by
    rw [List.length_take]; omega
  obtain ⟨a1, hp, hh⟩ := array_push_all_holds (ys.take (CAPACITY_LIMIT - xs.length)) arr xs h
    (by rw [htl]; omega)
  have hdl : (ys.drop (CAPACITY_LIMIT - xs.length)).length ≠ 0 := by
    rw [List.length_drop]; omega
  rw [hsplit, array_push_all_append, hp]
  cases hd : ys.drop (CAPACITY_LIMIT - xs.length) with
  | nil => simp [hd] at hdl
  | cons z zs =>
    have hz := array_push_at_limit a1 _ z hh (by rw [List.length_append, htl]; omega)
    simp [array_push_all, List.foldlM_cons, hz]

/-! ## String builder: proofs -/

theorem take_set_next {α : Type} (cells : List α) (n : Nat) (v : α)
    (h : n < cells.length) :
    (cells.set n v).take (n + 1) = cells.take n ++ [v] := by
  induction cells generalizing n with
  | nil => simp at h
  | cons a as ih =>
    cases n with
    | zero => simp
    | succ m =>
      simp only [List.length_cons, Nat.add_lt_add_iff_right] at h
      simp [ih m h]

theorem stringLive_init (s : string) : StringLive (init_string s) [] :=
  ⟨List.replicate 255 none, rfl, by show (0 : Int) < 255; decide,
    by show ((List.replicate 255 (none : Option char)).length : Int) = 255
       rw [List.length_replicate]; rfl,
    rfl, Nat.zero_le _, rfl⟩

theorem string_store_live (s : string) (xs : List char) (c : char)
    (cells : List (Option char)) (hb : s.buffer = .block cells)
    (hlen : s.len = (xs.length : Int)) (hlt : xs.length < cells.length)
    (hmax : (cells.length : Int) ≤ INT_MAX)
    (htake : cells.take xs.length = xs.map some) :
    string_store s c = some
      { buffer := .block (cells.set xs.length (some c))
        len := (xs.length : Int) + 1
        cap := s.cap } ∧
    (cells.set xs.length (some c)).take (xs.length + 1) = (xs ++ [c]).map some := by
  have hin : 0 ≤ s.len ∧ s.len < (cells.length : Int) := by
    rw [hlen]; constructor <;> omega
  have hio : int_of (s.len + 1) = some ((xs.length : Int) + 1) := by
    rw [hlen]
    apply int_of_eq_some
    · simp only [INT_MIN]; omega
    · omega
  constructor
  · have e1 : s.len.toNat = xs.length := by omega
    unfold string_store
    rw [hb]
    dsimp only
    rw [if_pos hin, hio, e1]
  · rw [take_set_next _ _ _ hlt, htake]; simp

/-- One `string_append_char` on a live builder: it succeeds when there is
room or the doubled capacity still fits an `int`. -/
theorem string_append_char_live (s : string) (xs : List char) (c : char)
    (h : StringLive s xs) (hroom : s.len < s.cap ∨ s.cap * 2 ≤ INT_MAX)
    (hmax : s.cap ≤ INT_MAX) :
    ∃ s1, string_append_char s c = some s1 ∧ StringLive s1 (xs ++ [c]) ∧
      s1.cap = (if s.len = s.cap then s.cap * 2 else s.cap) := by
  obtain ⟨cells, hb, hpos, hcl, hlen, hle, htake⟩ := h
  have hnot : ¬ s.cap ≤ 0 := not_le.mpr hpos
  by_cases hfull : s.len = s.cap
  · -- grow, then store
    have hfit : s.cap * 2 ≤ INT_MAX := by
      rcases hroom with h1 | h2
      · omega
      · exact h2
    have hxc : xs.length = cells.length := by omega
    have hio : int_of (s.cap * 2) = some (s.cap * 2) := by
      apply int_of_eq_some
      · simp only [INT_MIN]; omega
      · exact hfit
    have hgrow : string_grow s = some
        { buffer := .block (xs.map some ++ List.replicate cells.length none)
          len := s.len
          cap := s.cap * 2 } := by
      unfold string_grow
      rw [hio, hb]
      have h2 : ¬ (s.len < 0 ∨ (cells.length : Int) < s.len ∨ s.cap * 2 < s.len) := by
        omega
      simp only [h2, if_false]
      have e1 : s.len.toNat = xs.length := by omega
      have e2 : (s.cap * 2 - s.len).toNat = cells.length := by omega
      rw [e1, e2, htake]
    obtain ⟨hst, htk⟩ := string_store_live
      { buffer := .block (xs.map some ++ List.replicate cells.length none)
        len := s.len
        cap := s.cap * 2 } xs c _ rfl hlen
      (by simp; omega) (by simp; omega) (by simp)
    refine ⟨{ buffer := .block ((xs.map some ++ List.replicate cells.length none).set
                  xs.length (some c))
              len := (xs.length : Int) + 1
              cap := s.cap * 2 }, ?_, ?_, ?_⟩
    · unfold string_append_char
      simp only [if_neg hnot]
      rw [if_pos (by omega : s.len ≥ s.cap), hgrow]
      exact hst
    · refine ⟨_, rfl, by show 0 < s.cap * 2; omega, ?_, by simp, ?_, ?_⟩
      · simp; omega
      · simp; omega
      · simpa using htk
    · simp [hfull]
  · -- store in place
    have hlt : xs.length < cells.length := by omega
    obtain ⟨hst, htk⟩ := string_store_live s xs c cells hb hlen hlt (by omega) htake
    refine ⟨{ buffer := .block (cells.set xs.length (some c))
              len := (xs.length : Int) + 1
              cap := s.cap }, ?_, ?_, ?_⟩
    · unfold string_append_char
      simp only [if_neg hnot]
      rw [if_neg (by omega : ¬ s.len ≥ s.cap)]
      exact hst
    · refine ⟨_, rfl, hpos, ?_, by simp, ?_, ?_⟩
      · simpa using hcl
      · simp; omega
      · simpa using htk
    · simp [hfull]

/-- A full live builder whose doubled capacity leaves the `int` range. -/
theorem string_append_char_overflow (s : string) (c : char)
    (hpos : 0 < s.cap) (hfull : s.len ≥ s.cap) (hbig : INT_MAX < s.cap * 2) :
    string_append_char s c = none := by
  have hnot : ¬ s.cap ≤ 0 := not_le.mpr hpos
  unfold string_append_char
  simp only [if_neg hnot, if_pos hfull]
  unfold string_grow
  rw [int_of_eq_none hbig]

/-- On a builder with `cap ≤ 0` the call first runs `init_string`. -/
theorem string_append_char_fresh (s : string) (c : char) (h : s.cap ≤ 0) :
    string_append_char s c = string_append_char (init_string s) c := by
  unfold string_append_char
  have h1 : ¬ (init_string s).cap ≤ 0 := by show ¬ (255 : Int) ≤ 0; decide
  simp only [if_pos h, if_neg h1]

/-- Appending `bs` to a live builder that holds `xs`: it succeeds when some
doubling of the capacity inside the `int` range has room for all bytes. -/
theorem string_append_chars_live (bs : List char) :
    ∀ (s : string) (xs : List char) (j : Nat), StringLive s xs →
      ((xs.length + bs.length : Nat) : Int) ≤ s.cap * 2 ^ j →
      s.cap * 2 ^ j ≤ INT_MAX →
      ∃ s1, string_append_chars s bs = some s1 ∧ StringLive s1 (xs ++ bs) ∧
        ∃ i, i ≤ j ∧ s1.cap = s.cap * 2 ^ i ∧
          (i = 0 ∨ s1.cap < 2 * ((xs.length + bs.length : Nat) : Int)) := by
  induction bs with
  | nil =>
    intro s xs j h _ _
    exact ⟨s, rfl, by simpa using h, 0, Nat.zero_le _, by simp, Or.inl rfl⟩
  | cons b bs ih =>
    intro s xs j h hroom hfit
    have hlive := h
    obtain ⟨cells, hb, hpos, hcl, hlen, hle, htake⟩ := h
    have hpow : (1 : Int) ≤ 2 ^ j := one_le_pow₀ (by norm_num)
    have hcapmax : s.cap ≤ INT_MAX := by
      have : s.cap * 1 ≤ s.cap * 2 ^ j := Int.mul_le_mul_of_nonneg_left hpow (le_of_lt hpos)
      omega
    simp only [List.length_cons] at hroom
    by_cases hfull : s.len = s.cap
    · -- the first byte doubles the capacity
      have hj : j ≠ 0 := by
        intro h0
        subst h0
        simp at hroom
        omega
      obtain ⟨j1, rfl⟩ := Nat.exists_eq_succ_of_ne_zero hj
      have hpow1 : (1 : Int) ≤ 2 ^ j1 := one_le_pow₀ (by norm_num)
      have hexp : s.cap * 2 ^ (j1 + 1) = s.cap * 2 * 2 ^ j1 := by ring
      have h2fit : s.cap * 2 ≤ INT_MAX := by
        have : s.cap * 2 * 1 ≤ s.cap * 2 * 2 ^ j1 :=
          Int.mul_le_mul_of_nonneg_left hpow1 (by omega)
        rw [hexp] at hfit
        omega
      obtain ⟨s1, hp, hl1, hc1⟩ :=
        string_append_char_live s xs b hlive (Or.inr h2fit) hcapmax
      rw [if_pos hfull] at hc1
      obtain ⟨s2, hp2, hl2, i, hi, hci, hleast⟩ := ih s1 (xs ++ [b]) j1 hl1
        (by rw [hc1, ← hexp]; simp only [List.length_append, List.length_singleton]
            have : xs.length + 1 + bs.length = xs.length + (bs.length + 1) := by omega
            rw [this]; exact hroom)
        (by rw [hc1, ← hexp]; exact hfit)
      refine ⟨s2, ?_, by simpa using hl2, i + 1, by omega, ?_, Or.inr ?_⟩
      · simp only [string_append_chars, List.foldlM_cons, hp]
        exact hp2
      · rw [hci, hc1]; ring
      · rcases hleast with h0 | h1
        · subst h0
          rw [hci, hc1]
          simp only [pow_zero, mul_one, List.length_cons]
          push_cast
          omega
        · simp only [List.length_append, List.length_singleton] at h1
          simp only [List.length_cons]
          have : xs.length + 1 + bs.length = xs.length + (bs.length + 1) := by omega
          rw [this] at h1
          exact h1
    · -- the first byte is stored in place
      have hlt : s.len < s.cap := by omega
      obtain ⟨s1, hp, hl1, hc1⟩ :=
        string_append_char_live s xs b hlive (Or.inl hlt) hcapmax
      rw [if_neg hfull] at hc1
      obtain ⟨s2, hp2, hl2, i, hi, hci, hleast⟩ := ih s1 (xs ++ [b]) j hl1
        (by rw [hc1]; simp only [List.length_append, List.length_singleton]
            have : xs.length + 1 + bs.length = xs.length + (bs.length + 1) := by omega
            rw [this]; exact hroom)
        (by rw [hc1]; exact hfit)
      refine ⟨s2, ?_, by simpa using hl2, i, hi, by rw [hci, hc1], ?_⟩
      · simp only [string_append_chars, List.foldlM_cons, hp]
        exact hp2
      · rcases hleast with h0 | h1
        · exact Or.inl h0
        · right
          simp only [List.length_append, List.length_singleton] at h1
          simp only [List.length_cons]
          have : xs.length + 1 + bs.length = xs.length + (bs.length + 1) := by omega
          rw [this] at h1
          exact h1

/-! ## Claims about the growable sequence -/

/-- C1 (amended): for every list of `N ≤ 2139095040 = 255 * 2^23` elements,
`init_<name>()` followed by `<name>_push` on the elements in order succeeds,
the resulting `length` is `N`, and `<name>_get(arr, i)` returns the `i`-th
pushed element for every `i < N`; capacity-doubling boundaries such as
`N = 256, 511, 512, 1000` are included. -/
theorem array_push_all_get {T : Type} (xs : List T)
    (hN : xs.length ≤ CAPACITY_LIMIT) :
    ∃ arr, array_push_all (array_init T) xs = some arr ∧
      arr.length = (xs.length : Int) ∧
      ∀ (i : Nat) (h : i < xs.length), array_get arr i = some (xs.get ⟨i, h⟩) := by
  obtain ⟨arr, hp, hh⟩ := array_push_all_holds xs (array_init T) [] (arrayHolds_init T)
    (by simpa using hN)
  rw [List.nil_append] at hh
  exact ⟨arr, hp, hh.1, fun i h => array_get_holds arr xs hh i h⟩

/-- C1 (witness): 1000 elements, past the doublings at
255 and 510. -/
theorem array_push_all_get_witness :
    (List.range 1000).length ≤ CAPACITY_LIMIT ∧
    ∃ arr, array_push_all (array_init Nat) (List.range 1000) = some arr ∧
      arr.length = ((List.range 1000).length : Int) ∧
      ∀ (i : Nat) (h : i < (List.range 1000).length),
        array_get arr i = some ((List.range 1000).get ⟨i, h⟩) :=
  ⟨by rw [List.length_range]; decide,
   array_push_all_get (List.range 1000) (by rw [List.length_range]; decide)⟩

/-- C1 (counterexample): with `N = 2139095041` elements the last push finds
`length = capacity = 2139095040`, the doubling `capacity*2` overflows `int`,
and the run of pushes has no defined result. -/
theorem array_push_all_overflow :
    array_push_all (array_init Unit) (List.replicate 2139095041 ()) = none :=
  array_push_all_none (array_init Unit) [] (arrayHolds_init Unit) _
    (by rw [List.length_replicate]; decide) (by decide)

/-! ## Claims about the lexer skeleton -/

/-- When `lex_source_file` returns `LEX_ERR_NONE` the file was opened and
`init_lexer` installed a fresh token list. -/
theorem lex_source_file_none_tokens (fs : file_system) (path : String)
    (opt : compile_options) (st st1 : lexer_state)
    (h : lex_source_file fs path opt st = some (LEX_ERR_NONE, st1)) :
    get_tokens st1 = some (array_init token) := by
  unfold lex_source_file at h
  cases hi : init_lexer fs path st with
  | none => simp [hi] at h
  | some r =>
    obtain ⟨err, st2⟩ := r
    rw [hi] at h
    have hst : st2 = st1 ∧ err = LEX_ERR_NONE := by
      by_cases he : err = LEX_ERR_NONE
      · simp [he] at h
        exact ⟨h, he⟩
      · simp [he] at h
    obtain ⟨rfl, rfl⟩ := hst
    unfold init_lexer at hi
    by_cases hex : file_exists fs path = true
    · simp only [hex, Bool.not_true, Bool.false_eq_true, if_false] at hi
      cases hf : fs path with
      | absent => simp [hf] at hi
      | unopenable => simp [hf] at hi
      | readable bytes =>
        simp only [hf] at hi
        by_cases hsz : long_to_int (bytes.length : Int) < 0
        · simp [hsz] at hi
        · simp only [hsz, if_false, Option.some.injEq, Prod.mk.injEq, true_and] at hi
          rw [← hi]
          rfl
    · simp only [hex, Bool.not_false, if_true, Option.some.injEq, Prod.mk.injEq] at hi
      exact absurd hi.1 (by decide)

theorem long_to_int_small (n : Nat) (h : (n : Int) ≤ INT_MAX) :
    long_to_int (n : Int) = (n : Int) := by
  unfold long_to_int
  simp only [INT_MAX] at h
  omega

/-- On a file that opens and whose size fits an `int`, `lex_source_file`
returns `LEX_ERR_NONE`. -/
theorem lex_source_file_readable (fs : file_system) (path : String)
    (opt : compile_options) (st : lexer_state) (bytes : List char)
    (hfile : fs path = .readable bytes) (hsize : (bytes.length : Int) ≤ INT_MAX) :
    ∃ st1, lex_source_file fs path opt st = some (LEX_ERR_NONE, st1) := by
  have hex : file_exists fs path = true := by simp [file_exists, hfile]
  have hsz : ¬ long_to_int (bytes.length : Int) < 0 := by
    rw [long_to_int_small _ hsize]; omega
  unfold lex_source_file init_lexer
  simp [hex, hfile, hsz]

/-- C2 (amended): for every source file whose bytes are all whitespace,
`lex_source_file` returns `LEX_ERR_NONE` when the file opens (and its size
fits an `int`), and after it returns `LEX_ERR_NONE` the token stream returned
by `get_tokens()` contains no token at all: its length is 0 and no index holds
a token, so there is no `TEOF` token either. -/
theorem lex_whitespace_no_tokens (fs : file_system) (path : String)
    (opt : compile_options) (st : lexer_state) (bytes : List char)
    (hfile : fs path = .readable bytes)
    (_hws : ∀ b ∈ bytes, is_whitespace b = true) :
    ((bytes.length : Int) ≤ INT_MAX →
      ∃ st1, lex_source_file fs path opt st = some (LEX_ERR_NONE, st1)) ∧
    ∀ st1, lex_source_file fs path opt st = some (LEX_ERR_NONE, st1) →
      ∃ toks, get_tokens st1 = some toks ∧ toks.length = 0 ∧
        ∀ n, array_get toks n = none := by
  refine ⟨lex_source_file_readable fs path opt st bytes hfile, ?_⟩
  intro st1 h
  refine ⟨array_init token, lex_source_file_none_tokens fs path opt st st1 h, rfl, ?_⟩
  intro n
  unfold array_get array_init
  simp only [List.get?_eq_getElem?]
  by_cases hn : n < 255
  · rw [List.getElem?_replicate_of_lt hn]
  · rw [List.getElem?_eq_none (by rw [List.length_replicate]; omega)]

/-- C2 (witness): a file of three whitespace
bytes. -/
theorem lex_whitespace_no_tokens_witness :
    ((([32, 9, 10] : List char).length : Int) ≤ INT_MAX →
      ∃ st1, lex_source_file whitespace_fs "ws.c" (options_empty none) lexer_init
        = some (LEX_ERR_NONE, st1)) ∧
    ∀ st1, lex_source_file whitespace_fs "ws.c" (options_empty none) lexer_init
        = some (LEX_ERR_NONE, st1) →
      ∃ toks, get_tokens st1 = some toks ∧ toks.length = 0 ∧
        ∀ n, array_get toks n = none :=
  lex_whitespace_no_tokens whitespace_fs "ws.c" (options_empty none) lexer_init
    [32, 9, 10] rfl (by simp [is_whitespace])

/-- C2 (counterexample): for the file that holds one space,
`lex_source_file` returns `LEX_ERR_NONE` and the token stream has length 0
with nothing at index 0: not one token, and no `TEOF`. -/
theorem lex_whitespace_not_one_token :
    ∃ st1 toks,
      lex_source_file (fun _ => .readable [32]) "a.c" (options_empty none) lexer_init
        = some (LEX_ERR_NONE, st1) ∧
      get_tokens st1 = some toks ∧ toks.length = 0 ∧ toks.length ≠ 1 ∧
      array_get toks 0 = none :=
  ⟨_, _, rfl, rfl, rfl, by decide, rfl⟩

/-- C3: for every cursor state (the cursor fields are C `int`s, and the
column `lcol - 1` of the range is an `int` too), `get_current_location()`
returns the range with `begin_line = pline`, `end_line = lline`,
`begin_col = pcol`, `end_col = lcol - 1`, and `get_token(data, type)` returns a
token whose type and data are the arguments and whose location is exactly
that range. -/
theorem get_token_location (st : lexer_state) (data : Option String)
    (type : token_type) (hmin : INT_MIN < st.lcol) (hmax : st.lcol ≤ INT_MAX) :
    get_current_location st = some
      { begin_line := st.pline, end_line := st.lline, begin_col := st.pcol,
        end_col := st.lcol - 1, file_name := none } ∧
    get_token st data type = some
      { type := type
        location :=
          { begin_line := st.pline, end_line := st.lline, begin_col := st.pcol,
            end_col := st.lcol - 1, file_name := none }
        data := data } := by
  have hio : int_of (st.lcol - 1) = some (st.lcol - 1) :=
    int_of_eq_some (by omega) (by omega)
  have hloc : get_current_location st = some
      { begin_line := st.pline, end_line := st.lline, begin_col := st.pcol,
        end_col := st.lcol - 1, file_name := none } := by
    unfold get_current_location
    rw [hio]
  refine ⟨hloc, ?_⟩
  unfold get_token
  rw [hloc]

/-- C3 (witness): the cursor state with the live cursor at
line 3, column 7 and the mark at line 2, column 4. -/
theorem get_token_location_witness :
    (INT_MIN < cursor_example.lcol ∧ cursor_example.lcol ≤ INT_MAX) ∧
    get_current_location cursor_example = some
      { begin_line := 2, end_line := 3, begin_col := 4, end_col := 6,
        file_name := none } ∧
    get_token cursor_example (some "x") .TINT_LIT = some
      { type := .TINT_LIT
        location :=
          { begin_line := 2, end_line := 3, begin_col := 4, end_col := 6,
            file_name := none }
        data := some "x" } :=
  ⟨⟨by decide, by decide⟩,
   get_token_location cursor_example (some "x") .TINT_LIT (by decide) (by decide)⟩

/-- In every reachable state both cursors are at line 1, column 0: nothing
in `lexer.c` advances the live cursor. -/
theorem lexer_reachable_cursor (st : lexer_state) (h : lexer_reachable st) :
    st.lline = 1 ∧ st.lcol = 0 ∧ st.pline = 1 ∧ st.pcol = 0 := by
  induction h with
  | init => exact ⟨rfl, rfl, rfl, rfl⟩
  | save st _ ih => exact ⟨ih.1, ih.2.1, ih.1, ih.2.1⟩
  | lex fs path opt st st1 err _ hlex ih =>
    have hcur : st1.lline = st.lline ∧ st1.lcol = st.lcol ∧ st1.pline = st.pline
        ∧ st1.pcol = st.pcol := by
      unfold lex_source_file at hlex
      cases hi : init_lexer fs path st with
      | none => simp [hi] at hlex
      | some r =>
        obtain ⟨e2, st2⟩ := r
        rw [hi] at hlex
        have hst : st2 = st1 := by
          by_cases he : e2 = LEX_ERR_NONE
          · simp [he] at hlex; exact hlex.2
          · simp [he] at hlex; exact hlex.2
        subst hst
        unfold init_lexer at hi
        by_cases hex : file_exists fs path = true
        · simp only [hex, Bool.not_true, Bool.false_eq_true, if_false] at hi
          cases hf : fs path with
          | absent => simp [hf] at hi
          | unopenable => simp [hf] at hi
          | readable bytes =>
            simp only [hf] at hi
            by_cases hsz : long_to_int (bytes.length : Int) < 0
            · simp [hsz] at hi
            · simp only [hsz, if_false, Option.some.injEq, Prod.mk.injEq] at hi
              rw [← hi.2]
              exact ⟨rfl, rfl, rfl, rfl⟩
        · simp only [hex, Bool.not_false, if_true, Option.some.injEq, Prod.mk.injEq] at hi
          rw [← hi.2]
          exact ⟨rfl, rfl, rfl, rfl⟩
    obtain ⟨h1, h2, h3, h4⟩ := hcur
    exact ⟨h1.trans ih.1, h2.trans ih.2.1, h3.trans ih.2.2.1, h4.trans ih.2.2.2⟩

/-- In every reachable state the live column and its predecessor are both
`int`s: `lcol - 1` is computed without overflow in every state that the
operations of `lexer.c` produce. -/
theorem lexer_reachable_lcol_range (st : lexer_state) (h : lexer_reachable st) :
    INT_MIN < st.lcol ∧ st.lcol ≤ INT_MAX := by
  rw [(lexer_reachable_cursor st h).2.1]
  exact ⟨by decide, by decide⟩

/-- C4 (amended): every Source Range produced by `get_current_location()` in
a state reachable from the initial cursor state by the operations of
`lexer.c` satisfies `begin_line ≤ end_line` and, when `begin_line = end_line`,
`begin_col ≤ end_col + 1`: it is the empty range with both lines 1,
`begin_col = 0` and `end_col = -1`. -/
theorem reachable_location_range (st : lexer_state) (h : lexer_reachable st) :
    ∃ r, get_current_location st = some r ∧
      r.begin_line ≤ r.end_line ∧
      (r.begin_line = r.end_line → r.begin_col ≤ r.end_col + 1) ∧
      r = { begin_line := 1, end_line := 1, begin_col := 0, end_col := -1,
            file_name := none } := by
  obtain ⟨h1, h2, h3, h4⟩ := lexer_reachable_cursor st h
  have hloc : get_current_location st = some
      { begin_line := 1, end_line := 1, begin_col := 0, end_col := -1,
        file_name := none } := by
    unfold get_current_location
    rw [h1, h2, h3, h4]
    rfl
  exact ⟨_, hloc, by decide, by decide, rfl⟩

/-- C4 (witness): the state right after
`save_lexer_position()` in the initial state. -/
theorem reachable_location_range_witness :
    lexer_reachable (save_lexer_position lexer_init) ∧
    ∃ r, get_current_location (save_lexer_position lexer_init) = some r ∧
      r.begin_line ≤ r.end_line ∧
      (r.begin_line = r.end_line → r.begin_col ≤ r.end_col + 1) ∧
      r = { begin_line := 1, end_line := 1, begin_col := 0, end_col := -1,
            file_name := none } :=
  ⟨.save _ .init, reachable_location_range _ (.save _ .init)⟩

/-- C4 (counterexample): in the initial state, and again right after
`save_lexer_position()`, the range has `begin_line = end_line` but
`begin_col = 0 > end_col = -1`. -/
theorem reachable_location_range_inverted :
    (∃ r, get_current_location lexer_init = some r ∧
      r.begin_line = r.end_line ∧ ¬ r.begin_col ≤ r.end_col) ∧
    (∃ r, get_current_location (save_lexer_position lexer_init) = some r ∧
      r.begin_line = r.end_line ∧ ¬ r.begin_col ≤ r.end_col) :=
  ⟨⟨_, rfl, by decide, by decide⟩, ⟨_, rfl, by decide, by decide⟩⟩

/-! ## String builder: runs of appends -/

theorem string_append_chars_cons (s : string) (b : char) (bs : List char) :
    string_append_chars s (b :: bs)
      = (string_append_char s b).bind (fun s1 => string_append_chars s1 bs) := by
  simp [string_append_chars, List.foldlM_cons]

theorem string_append_chars_append (s : string) (xs ys : List char) :
    string_append_chars s (xs ++ ys)
      = (string_append_chars s xs).bind (fun a => string_append_chars a ys) := by
  simp [string_append_chars, List.foldlM_append]

/-- A non-empty run of appends on a builder with `cap ≤ 0` starts with
`init_string`. -/
theorem string_append_chars_fresh (s : string) (b : char) (bs : List char)
    (h : s.cap ≤ 0) :
    string_append_chars s (b :: bs) = string_append_chars (init_string s) (b :: bs) := by
  rw [string_append_chars_cons, string_append_chars_cons, string_append_char_fresh s b h]

theorem determinate_map_some {α : Type} (xs : List α) :
    determinate (xs.map some) = some xs := by
  induction xs with
  | nil => rfl
  | cons a as ih => simp [determinate, ih]

/-- A live builder that holds `xs` has contents `xs`. -/
theorem string_contents_live (s : string) (xs : List char) (h : StringLive s xs) :
    string_contents s = some xs := by
  obtain ⟨cells, hb, hpos, hcl, hlen, hle, htake⟩ := h
  have hnot : ¬ s.cap ≤ 0 := not_le.mpr hpos
  have hin : 0 ≤ s.len ∧ s.len ≤ (cells.length : Int) := by
    rw [hlen]; constructor <;> omega
  have e1 : s.len.toNat = xs.length := by omega
  unfold string_contents
  rw [if_neg hnot, hb]
  dsimp only
  rw [if_pos hin, e1, htake, determinate_map_some]

/-- Appending `bs` to a live builder with the initial capacity 255 that
holds nothing yet, within the limit. -/
theorem string_append_chars_from_init (s : string) (bs : List char)
    (hlive : StringLive s []) (hcap : s.cap = 255)
    (hN : bs.length ≤ CAPACITY_LIMIT) :
    ∃ s1, string_append_chars s bs = some s1 ∧ StringLive s1 bs ∧
      ∃ i, i ≤ 23 ∧ s1.cap = 255 * 2 ^ i ∧
        (i = 0 ∨ s1.cap < 2 * (bs.length : Int)) := by
  obtain ⟨s1, hp, hl, i, hi, hc, hleast⟩ := string_append_chars_live bs s [] 23 hlive
    (by rw [hcap]; simp only [List.length_nil, Nat.zero_add]; norm_num
        simpa [CAPACITY_LIMIT] using hN)
    (by rw [hcap]; simp only [INT_MAX]; norm_num)
  refine ⟨s1, hp, by simpa using hl, i, hi, by rw [hc, hcap], ?_⟩
  simpa using hleast

/-- Appending `bs` to a builder with `cap = 0` and `len = 0`, within the
limit. -/
theorem string_append_chars_from_empty (s : string) (bs : List char)
    (hcap : s.cap = 0) (hlen : s.len = 0) (hN : bs.length ≤ CAPACITY_LIMIT) :
    ∃ s1, string_append_chars s bs = some s1 ∧ StringHolds s1 bs ∧
      s1.len = (bs.length : Int) ∧ (bs.length : Int) ≤ s1.cap ∧
      (bs ≠ [] → ∃ i, i ≤ 23 ∧ s1.cap = 255 * 2 ^ i ∧
        (i = 0 ∨ s1.cap < 2 * (bs.length : Int))) := by
  cases bs with
  | nil =>
    refine ⟨s, rfl, Or.inl ⟨le_of_eq hcap, hlen, rfl⟩, by simpa using hlen,
      by simp [hcap], ?_⟩
    intro h; exact absurd rfl h
  | cons b bs =>
    obtain ⟨s1, hp, hl, hi⟩ := string_append_chars_from_init (init_string s) (b :: bs)
      (stringLive_init s) rfl hN
    refine ⟨s1, ?_, Or.inr hl, ?_, ?_, fun _ => hi⟩
    · rw [string_append_chars_fresh s b bs (le_of_eq hcap)]; exact hp
    · obtain ⟨cells, _, _, _, h4, _, _⟩ := hl; exact h4
    · obtain ⟨cells, _, _, h3, _, h5, _⟩ := hl; omega

/-- One append more than the limit: the run has no defined result. -/
theorem string_append_chars_from_init_overflow (s : string) (bs : List char)
    (hlive : StringLive s []) (hcap : s.cap = 255)
    (hN : CAPACITY_LIMIT < bs.length) :
    string_append_chars s bs = none := by
  have hsplit : bs = bs.take CAPACITY_LIMIT ++ bs.drop CAPACITY_LIMIT :=
    (List.take_append_drop _ _).symm
  have htl : (bs.take CAPACITY_LIMIT).length = CAPACITY_LIMIT := by
    rw [List.length_take]; omega
  obtain ⟨s1, hp, hl, i, hi, hc, _⟩ :=
    string_append_chars_from_init s (bs.take CAPACITY_LIMIT) hlive hcap (by omega)
  obtain ⟨cells, _, hpos, hcl, hlen, hle, _⟩ := hl
  have hpw : (2 : Int) ^ i ≤ 2 ^ 23 := pow_le_pow_right₀ (by norm_num) hi
  have hcapv : s1.cap = 2139095040 := by
    have h1 : (2139095040 : Int) ≤ s1.cap := by
      rw [← hcl]
      have : CAPACITY_LIMIT ≤ cells.length := by omega
      simp only [CAPACITY_LIMIT] at this
      omega
    have h2 : s1.cap ≤ 2139095040 := by
      rw [hc]
      have : (255 : Int) * 2 ^ i ≤ 255 * 2 ^ 23 :=
        Int.mul_le_mul_of_nonneg_left hpw (by norm_num)
      norm_num at this
      exact this
    omega
  have hdl : (bs.drop CAPACITY_LIMIT).length ≠ 0 := by
    rw [List.length_drop]; omega
  rw [hsplit, string_append_chars_append, hp]
  cases hd : bs.drop CAPACITY_LIMIT with
  | nil => simp [hd] at hdl
  | cons z zs =>
    have hz : string_append_char s1 z = none :=
      string_append_char_overflow s1 z hpos
        (by rw [hlen, htl, hcapv]; simp only [CAPACITY_LIMIT]; norm_num)
        (by rw [hcapv]; simp only [INT_MAX]; norm_num)
    simp [string_append_chars_cons, hz]

/-- The loop of `string_append` over `formatted` followed by its zero byte
appends the bytes before the first zero byte. -/
theorem string_append_loop_eq (formatted : List char) :
    ∀ s : string, string_append_loop s (formatted ++ [0])
      = string_append_chars s (before_zero formatted) := by
  induction formatted with
  | nil => intro s; rfl
  | cons b rest ih =>
    intro s
    by_cases hb : b = 0
    · simp [string_append_loop, before_zero, hb, string_append_chars]
    · simp only [List.cons_append, string_append_loop, before_zero, if_neg hb,
        string_append_chars_cons]
      cases string_append_char s b with
      | none => rfl
      | some s1 => exact ih s1

/-! ## Claims about the string builder -/

theorem get_set_same {α : Type} (cells : List α) (n : Nat) (v : α)
    (h : n < cells.length) : (cells.set n v).get? n = some v := by
  induction cells generalizing n with
  | nil => simp at h
  | cons a as ih =>
    cases n with
    | zero => rfl
    | succ m =>
      simp only [List.length_cons, Nat.add_lt_add_iff_right] at h
      simpa using ih m h

theorem take_set_same {α : Type} (cells : List α) (n : Nat) (v : α) :
    (cells.set n v).take n = cells.take n := by
  induction cells generalizing n with
  | nil => simp
  | cons a as ih =>
    cases n with
    | zero => rfl
    | succ m => simp [ih m]

/-- The first append after `init_string`. -/
theorem string_append_char_init (s : string) (c : char) :
    string_append_char (init_string s) c = some
      { buffer := .block (some c :: List.replicate 254 none), len := 1, cap := 255 } := by
  have h1 : ¬ (init_string s).cap ≤ 0 := by show ¬ (255 : Int) ≤ 0; decide
  have h2 : ¬ (init_string s).len ≥ (init_string s).cap := by
    show ¬ (0 : Int) ≥ 255; decide
  have hin : 0 ≤ (init_string s).len ∧
      (init_string s).len < ((List.replicate 255 (none : Option char)).length : Int) := by
    rw [List.length_replicate]; show (0 : Int) ≤ 0 ∧ (0 : Int) < 255; decide
  have hio : int_of ((init_string s).len + 1) = some 1 := by
    show int_of (0 + 1) = some 1; decide
  have hset : (List.replicate 255 (none : Option char)).set (init_string s).len.toNat (some c)
      = some c :: List.replicate 254 none := by
    show (List.replicate (254 + 1) (none : Option char)).set 0 (some c) = _
    rw [List.replicate_succ]; rfl
  unfold string_append_char
  simp only [if_neg h1, if_neg h2]
  unfold string_store
  show (if 0 ≤ (init_string s).len ∧
      (init_string s).len < ((List.replicate 255 (none : Option char)).length : Int) then _
    else _) = _
  rw [if_pos hin, hio, hset]
  rfl

/-- C5 (evaluation at the failing input): after exactly 255
`string_append_char` calls on a zero-initialised builder, `len = cap = 255`
and the block has 255 cells, so the write `buf[len] = 0` of `string_to_cstr`
falls one cell past the end of the block and the call has no defined
result. -/
theorem string_to_cstr_at_capacity (bs : List char) (h : bs.length = 255) :
    ∃ s cells, string_append_chars string_zero bs = some s ∧
      s.len = 255 ∧ s.cap = 255 ∧ s.buffer = .block cells ∧ cells.length = 255 ∧
      string_to_cstr s = none := by
  have hne : bs ≠ [] := by
    intro h0; rw [h0] at h; simp at h
  obtain ⟨s, hp, hh, hlen, _, hi⟩ := string_append_chars_from_empty string_zero bs rfl rfl
    (by rw [h]; decide)
  obtain ⟨i, _, hc, hleast⟩ := hi hne
  have hcap : s.cap = 255 := by
    rcases hleast with h0 | h1
    · rw [hc, h0]; norm_num
    · rw [h] at h1
      have hi0 : i = 0 := by
        by_contra hcon
        obtain ⟨m, rfl⟩ := Nat.exists_eq_succ_of_ne_zero hcon
        have hm : (1 : Int) ≤ 2 ^ m := one_le_pow₀ (by norm_num)
        rw [hc, pow_succ] at h1
        push_cast at h1
        omega
      rw [hc, hi0]; norm_num
  have hlive : StringLive s bs := by
    rcases hh with ⟨h1, _, _⟩ | h2
    · rw [hcap] at h1; exact absurd h1 (by decide)
    · exact h2
  obtain ⟨cells, hb, hpos, hcl, _, _, _⟩ := hlive
  have hcl1 : cells.length = 255 := by rw [hcap] at hcl; omega
  have hlen1 : s.len = 255 := by rw [hlen, h]; rfl
  refine ⟨s, cells, hp, hlen1, hcap, hb, hcl1, ?_⟩
  have hnot : ¬ s.cap ≤ 0 := not_le.mpr hpos
  have hout : ¬ (0 ≤ s.len ∧ s.len < (cells.length : Int)) := by
    rw [hlen1, hcl1]; decide
  unfold string_to_cstr
  simp only [if_neg hnot, hb, if_neg hout]

/-- C5 (witness): 255 times the byte 65. -/
theorem string_to_cstr_at_capacity_witness :
    (List.replicate 255 (65 : char)).length = 255 ∧
    ∃ s cells, string_append_chars string_zero (List.replicate 255 65) = some s ∧
      s.len = 255 ∧ s.cap = 255 ∧ s.buffer = .block cells ∧ cells.length = 255 ∧
      string_to_cstr s = none :=
  ⟨List.length_replicate _ _,
   string_to_cstr_at_capacity (List.replicate 255 65) (List.length_replicate _ _)⟩

/-- C6 (amended): on a builder with `cap ≤ 0` the call first initialises to
`len = 0`, `cap = 255`, so the result has `len = 1`, `cap = 255` and contents
`[c]`.  On a builder with a live block of `cap > 0` cells, `0 ≤ len ≤ cap`, and
`2*cap ≤ INT_MAX` in case `len = cap`, the call increases `len` by exactly 1,
stores `c` at the old index `len`, leaves the cells `0..len-1` unchanged, sets
`cap` to `2*cap` if `len = cap` before the call and leaves it unchanged
otherwise. -/
theorem string_append_char_effect (s : string) (c : char) :
    (s.cap ≤ 0 → string_append_char s c = some
        { buffer := .block (some c :: List.replicate 254 none), len := 1, cap := 255 }) ∧
    (∀ cells : List (Option char), s.buffer = .block cells →
      (cells.length : Int) = s.cap → 0 < s.cap → s.cap ≤ INT_MAX →
      0 ≤ s.len → s.len ≤ s.cap → (s.len = s.cap → 2 * s.cap ≤ INT_MAX) →
      ∃ cells1, string_append_char s c = some
          { buffer := .block cells1
            len := s.len + 1
            cap := if s.len = s.cap then 2 * s.cap else s.cap } ∧
        (cells1.length : Int) = (if s.len = s.cap then 2 * s.cap else s.cap) ∧
        cells1.get? s.len.toNat = some (some c) ∧
        cells1.take s.len.toNat = cells.take s.len.toNat) := by
  constructor
  · intro h
    rw [string_append_char_fresh s c h]
    exact string_append_char_init s c
  · intro cells hb hcl hpos hmax h0 hle hfit
    have hnot : ¬ s.cap ≤ 0 := not_le.mpr hpos
    by_cases hfull : s.len = s.cap
    · have hfit2 : s.cap * 2 ≤ INT_MAX := by have := hfit hfull; omega
      have hio : int_of (s.cap * 2) = some (s.cap * 2) :=
        int_of_eq_some (by simp only [INT_MIN]; omega) hfit2
      have hio1 : int_of (s.len + 1) = some (s.len + 1) :=
        int_of_eq_some (by simp only [INT_MIN]; omega) (by omega)
      have e1 : s.len.toNat = cells.length := by omega
      have e2 : (s.cap * 2 - s.len).toNat = cells.length := by omega
      have hm : ¬ (s.len < 0 ∨ (cells.length : Int) < s.len ∨ s.cap * 2 < s.len) := by
        omega
      have hgrow : string_grow s = some
          { buffer := .block (cells ++ List.replicate cells.length none)
            len := s.len
            cap := s.cap * 2 } := by
        unfold string_grow
        rw [hio, hb]
        dsimp only
        rw [if_neg hm, e1, e2, List.take_length]
      have hin : 0 ≤ s.len ∧
          s.len < ((cells ++ List.replicate cells.length (none : Option char)).length : Int) := by
        rw [List.length_append, List.length_replicate]; omega
      refine ⟨(cells ++ List.replicate cells.length none).set cells.length (some c),
        ?_, ?_, ?_, ?_⟩
      · unfold string_append_char
        simp only [if_neg hnot]
        rw [if_pos (by omega : s.len ≥ s.cap), hgrow]
        unfold string_store
        dsimp only
        rw [if_pos hin, hio1, e1, if_pos hfull, mul_comm s.cap 2]
      · rw [if_pos hfull, List.length_set, List.length_append, List.length_replicate]
        omega
      · rw [e1]
        exact get_set_same _ _ _ (by rw [List.length_append, List.length_replicate]; omega)
      · rw [e1, take_set_same, List.take_left' rfl, List.take_length]
    · have hlt : s.len < s.cap := by omega
      have hio1 : int_of (s.len + 1) = some (s.len + 1) :=
        int_of_eq_some (by simp only [INT_MIN]; omega) (by omega)
      have hin : 0 ≤ s.len ∧ s.len < (cells.length : Int) := by omega
      refine ⟨cells.set s.len.toNat (some c), ?_, ?_, ?_, ?_⟩
      · unfold string_append_char
        simp only [if_neg hnot]
        rw [if_neg (by omega : ¬ s.len ≥ s.cap)]
        unfold string_store
        rw [hb]
        dsimp only
        rw [if_pos hin, hio1, if_neg hfull]
      · rw [if_neg hfull, List.length_set]; exact hcl
      · exact get_set_same _ _ _ (by omega)
      · exact take_set_same _ _ _

/-- C6 (witness): a builder with a live block of
two cells that holds one byte, and a released one. -/
theorem string_append_char_effect_witness :
    (string_append_char string_zero 65 = some
        { buffer := .block (some 65 :: List.replicate 254 none), len := 1, cap := 255 }) ∧
    (∃ cells1, string_append_char string_small 66 = some
          { buffer := .block cells1, len := 2, cap := 2 } ∧
        (cells1.length : Int) = 2 ∧ cells1.get? 1 = some (some 66) ∧
        cells1.take 1 = [some 65]) :=
  ⟨(string_append_char_effect string_zero 65).1 (by decide),
   (string_append_char_effect string_small 66).2 [some 65, none] rfl rfl
     (by decide) (by decide) (by decide) (by decide) (by decide)⟩

/-- C6 (counterexample): a builder with a live block of `2139095040` cells,
`cap = 2139095040 > 0` and `len = cap`; the doubling `cap*2` overflows `int`
and the call has no defined result, so `len` is not increased and `cap` is not
set to `2*cap`. -/
theorem string_append_char_at_limit :
    (0 < string_full.cap ∧ 0 ≤ string_full.len ∧ string_full.len ≤ string_full.cap) ∧
    (∃ cells, string_full.buffer = .block cells ∧
      (cells.length : Int) = string_full.cap) ∧
    string_append_char string_full 65 = none :=
  ⟨⟨by decide, by decide, by decide⟩,
   ⟨_, rfl, by rw [List.length_replicate]; rfl⟩,
   string_append_char_overflow string_full 65 (by decide) (by decide) (by decide)⟩

/-- With the formatted length inside the `int` range, `string_append` is the
run of appends of the bytes before the first zero byte, after the lazy
initialisation. -/
theorem string_append_run (s : string) (formatted : List char)
    (hn : (formatted.length : Int) < INT_MAX) :
    string_append s formatted
      = string_append_chars (if s.cap ≤ 0 then init_string s else s)
          (before_zero formatted) := by
  have hio : int_of (formatted.length : Int) = some (formatted.length : Int) :=
    int_of_eq_some (by simp only [INT_MIN]; omega) (by omega)
  have hio1 : int_of ((formatted.length : Int) + 1) = some ((formatted.length : Int) + 1) :=
    int_of_eq_some (by simp only [INT_MIN]; omega) (by omega)
  rw [← string_append_loop_eq formatted _]
  generalize hs1 : (if s.cap ≤ 0 then init_string s else s) = s1
  have hdef : string_append s formatted =
      (match int_of (formatted.length : Int) with
       | none => none
       | some size =>
         match int_of (size + 1) with
         | none => none
         | some _ => string_append_loop s1 (formatted ++ [0])) := by
    rw [← hs1]; rfl
  rw [hdef]
  split
  · rename_i h
    rw [hio] at h
    cases h
  · rename_i size h
    rw [hio] at h
    cases h
    split
    · rename_i h1
      rw [hio1] at h1
      cases h1
    · rfl

/-- C7 (amended): for every valid builder state that holds the bytes `xs`
and every formatted result `r` of length `n < INT_MAX`, whenever some doubling
`cap * 2^j ≤ INT_MAX` of the working capacity has room for the new length,
`string_append` increases `len` by the number of bytes of `r` that come before
its first zero byte (by `n` when `r` holds no zero byte) and appends exactly
those bytes, in order, after the previous contents. -/
theorem string_append_effect (s : string) (xs formatted : List char) (j : Nat)
    (hs : StringHolds s xs) (hn : (formatted.length : Int) < INT_MAX)
    (hroom : ((xs.length + (before_zero formatted).length : Nat) : Int)
      ≤ string_working_cap s * 2 ^ j)
    (hfit : string_working_cap s * 2 ^ j ≤ INT_MAX) :
    ∃ s1, string_append s formatted = some s1 ∧
      s1.len = s.len + ((before_zero formatted).length : Int) ∧
      StringLive s1 (xs ++ before_zero formatted) ∧
      string_contents s1 = some (xs ++ before_zero formatted) := by
  have hrun := string_append_run s formatted hn
  rcases hs with ⟨hcap, hlen, hxs⟩ | hlive
  · -- empty builder: lazy initialisation first
    subst hxs
    have hw : string_working_cap s = (init_string s).cap := by
      unfold string_working_cap; rw [if_pos hcap]; rfl
    rw [hw] at hroom hfit
    obtain ⟨s1, hp, hl, _⟩ := string_append_chars_live (before_zero formatted)
      (init_string s) [] j (stringLive_init s) hroom hfit
    refine ⟨s1, ?_, ?_, hl, string_contents_live s1 _ hl⟩
    · rw [hrun, if_pos hcap]; exact hp
    · obtain ⟨_, _, _, _, h4, _, _⟩ := hl
      rw [h4, hlen]; simp
  · have hpos : 0 < s.cap := by obtain ⟨_, _, h, _⟩ := hlive; exact h
    have hnot : ¬ s.cap ≤ 0 := not_le.mpr hpos
    have hw : string_working_cap s = s.cap := by
      unfold string_working_cap; rw [if_neg hnot]
    rw [hw] at hroom hfit
    obtain ⟨s1, hp, hl, _⟩ := string_append_chars_live (before_zero formatted)
      s xs j hlive hroom hfit
    refine ⟨s1, ?_, ?_, hl, string_contents_live s1 _ hl⟩
    · rw [hrun, if_neg hnot]; exact hp
    · obtain ⟨_, _, _, _, h4, _, _⟩ := hl
      obtain ⟨_, _, _, _, h4s, _, _⟩ := hlive
      rw [h4, h4s]; simp

/-- C7 (witness): the formatted result `hi` on a
zero-initialised builder. -/
theorem string_append_effect_witness :
    ∃ s1, string_append string_zero [104, 105] = some s1 ∧
      s1.len = string_zero.len + ((before_zero [104, 105]).length : Int) ∧
      StringLive s1 ([] ++ before_zero [104, 105]) ∧
      string_contents s1 = some ([] ++ before_zero [104, 105]) :=
  string_append_effect string_zero [] [104, 105] 0 (Or.inl ⟨by decide, rfl, rfl⟩)
    (by decide) (by decide) (by decide)

/-- C7 (counterexample): the formatted result of `"%c"` with argument 0 is
the single byte 0, of length `n = 1`, and `string_append` leaves `len` at 0;
of the result `[65, 0, 66]`, of length 3, only the byte 65 is appended; and on
the builder filled to `len = cap = 2139095040` the first append overflows
`cap*2`. -/
theorem string_append_zero_byte :
    (∃ s1, string_append string_zero [0] = some s1 ∧ s1.len = 0 ∧
      s1.len ≠ string_zero.len + 1 ∧ string_contents s1 = some []) ∧
    (∃ s1, string_append string_zero [65, 0, 66] = some s1 ∧ s1.len = 1 ∧
      s1.len ≠ string_zero.len + 3 ∧ string_contents s1 = some [65]) ∧
    string_append string_full [65] = none := by
  refine ⟨⟨_, rfl, rfl, by decide, rfl⟩, ?_, ?_⟩
  · have hrun := string_append_run string_zero [65, 0, 66] (by decide)
    have hzero : string_zero.cap ≤ 0 := by decide
    have hb : before_zero [65, 0, 66] = [65] := by decide
    rw [if_pos hzero, hb, string_append_chars_cons, string_append_char_init] at hrun
    have hlive : StringLive
        { buffer := .block (some 65 :: List.replicate 254 none), len := 1, cap := 255 }
        [65] :=
      ⟨_, rfl, by decide, by rw [List.length_cons, List.length_replicate]; rfl, rfl,
        by rw [List.length_cons, List.length_cons, List.length_replicate]; decide, rfl⟩
    exact ⟨_, hrun, rfl, by decide, string_contents_live _ _ hlive⟩
  · have hov : string_append_char string_full 65 = none :=
      string_append_char_overflow string_full 65 (by decide) (by decide) (by decide)
    have hnot : ¬ string_full.cap ≤ 0 := by decide
    rw [string_append_run string_full [65] (by decide), if_neg hnot]
    show string_append_chars string_full [65] = none
    rw [string_append_chars_cons, hov]
    rfl

/-- The view `string_to_cstr` returns on a builder with `cap ≤ 0`. -/
theorem string_to_cstr_fresh (s : string) (h : s.cap ≤ 0) :
    string_to_cstr s = some
      (some 0 :: List.replicate 254 none,
       { buffer := .block (some 0 :: List.replicate 254 none), len := 0, cap := 255 }) := by
  have hin : 0 ≤ (init_string s).len ∧
      (init_string s).len < ((List.replicate 255 (none : Option char)).length : Int) := by
    rw [List.length_replicate]; show (0 : Int) ≤ 0 ∧ (0 : Int) < 255; decide
  have hset : (List.replicate 255 (none : Option char)).set (init_string s).len.toNat (some 0)
      = some 0 :: List.replicate 254 none := by
    show (List.replicate (254 + 1) (none : Option char)).set 0 (some 0) = _
    rw [List.replicate_succ]; rfl
  unfold string_to_cstr
  simp only [if_pos h]
  show (if 0 ≤ (init_string s).len ∧
      (init_string s).len < ((List.replicate 255 (none : Option char)).length : Int) then _
    else _) = _
  rw [if_pos hin]
  simp only [hset]
  rfl

/-- C8 (amended): for every builder state `s` whose buffer pointer is null or
points to a live block (a builder that has not already been released),
`string_free(s)` leaves `len = 0` and `cap = 0`, and the builder is usable
again: any following sequence of at most `2139095040` `string_append_char`
calls with bytes `b1..bk` yields `len = k`, `cap ≥ k` and contents exactly
`b1..bk`, and `string_to_cstr` right after `string_free` yields the empty
string. -/
theorem string_free_reusable (s : string) (hbuf : s.buffer ≠ .freed) :
    ∃ s0, string_free s = some s0 ∧ s0.len = 0 ∧ s0.cap = 0 ∧
      (∀ bs : List char, bs.length ≤ CAPACITY_LIMIT →
        ∃ s1, string_append_chars s0 bs = some s1 ∧ s1.len = (bs.length : Int) ∧
          (bs.length : Int) ≤ s1.cap ∧ string_contents s1 = some bs) ∧
      ∃ view s2, string_to_cstr s0 = some (view, s2) ∧ cstr view = some [] := by
  have hfree : ∃ p, free s.buffer = some p := by
    cases hb : s.buffer with
    | null => exact ⟨_, rfl⟩
    | freed => exact absurd hb hbuf
    | block cells => exact ⟨_, rfl⟩
  obtain ⟨p, hp⟩ := hfree
  refine ⟨{ buffer := p, len := 0, cap := 0 }, ?_, rfl, rfl, ?_, ?_⟩
  · unfold string_free; rw [hp]
  · intro bs hN
    obtain ⟨s1, hrun, hh, hlen, hcap, _⟩ :=
      string_append_chars_from_empty { buffer := p, len := 0, cap := 0 } bs rfl rfl hN
    refine ⟨s1, hrun, hlen, hcap, ?_⟩
    rcases hh with ⟨h1, _, h3⟩ | hl
    · rw [h3]; unfold string_contents; rw [if_pos h1]
    · exact string_contents_live s1 bs hl
  · exact ⟨_, _, string_to_cstr_fresh _ (le_refl _), rfl⟩

/-- C8 (witness): releasing a builder with a live
block. -/
theorem string_free_reusable_witness :
    string_small.buffer ≠ .freed ∧
    ∃ s0, string_free string_small = some s0 ∧ s0.len = 0 ∧ s0.cap = 0 ∧
      (∀ bs : List char, bs.length ≤ CAPACITY_LIMIT →
        ∃ s1, string_append_chars s0 bs = some s1 ∧ s1.len = (bs.length : Int) ∧
          (bs.length : Int) ≤ s1.cap ∧ string_contents s1 = some bs) ∧
      ∃ view s2, string_to_cstr s0 = some (view, s2) ∧ cstr view = some [] :=
  ⟨by decide, string_free_reusable string_small (by decide)⟩

/-- C8 (counterexample): releasing a builder leaves its buffer pointer
dangling, so `string_free` on the released builder frees the block a second
time and has no defined result; and a run of `2139095041` appends after the
release overflows `cap*2` at the last one. -/
theorem string_free_twice :
    string_free string_small = some string_released ∧
    string_free string_released = none ∧
    string_append_chars string_released (List.replicate 2139095041 65) = none := by
  refine ⟨rfl, rfl, ?_⟩
  have hlen : (List.replicate 2139095041 (65 : char)).length = 2139095041 :=
    List.length_replicate _ _
  have hcons : List.replicate 2139095041 (65 : char)
      = 65 :: List.replicate 2139095040 65 := List.replicate_succ 65 2139095040
  have hrun := string_append_chars_from_init_overflow (init_string string_released)
    (List.replicate 2139095041 65) (stringLive_init _) rfl
    (by rw [hlen]; decide)
  rw [hcons] at hrun ⊢
  rw [string_append_chars_fresh string_released 65 _ (by decide)]
  exact hrun

/-! ## Claims about argument parsing -/

theorem starts_with_dash_ne_i (arg : String) (h : starts_with_dash arg = false) :
    arg ≠ "-i" ∧ arg ≠ "-o" := by
  constructor
  · intro h0; rw [h0] at h; exact absurd h (by decide)
  · intro h0; rw [h0] at h; exact absurd h (by decide)

theorem push_input_path_some (o : compile_options) (arr : array_of String)
    (p : String) (h : o.input_paths = some arr) :
    push_input_path o p = (array_push arr p).map
      (fun a => { input_paths := some a, output_path := o.output_path }) := by
  unfold push_input_path
  rw [h]
  cases hp : array_push arr p <;> simp [hp]

theorem array_push_all_cons {T : Type} (arr : array_of T) (x : T) (xs : List T) :
    array_push_all arr (x :: xs)
      = (array_push arr x).bind (fun a => array_push_all a xs) := by
  simp [array_push_all, List.foldlM_cons]

/-- One round of the loop of `parse_arguments`. -/
theorem parse_loop_cons (arg : String) (rest : List String) (o : compile_options) :
    parse_loop (arg :: rest) o =
      if arg = "-i" then
        match rest with
        | [] => some (1, o)
        | value :: rest1 =>
          match push_input_path o value with
          | none => none
          | some o1 => parse_loop rest1 o1
      else if arg = "-o" then
        match rest with
        | [] => some (1, o)
        | value :: rest1 => parse_loop rest1 { o with output_path := some value }
      else if starts_with_dash arg then some (1, o)
      else
        match push_input_path o arg with
        | none => none
        | some o1 => parse_loop rest o1 := by
  rw [parse_loop.eq_def]

/-- The loop of `parse_arguments` over the words of accepted items: the
input paths are pushed in order, the output path follows the last `-o`, and
the loop goes on with the remaining arguments. -/
theorem parse_loop_words (items : List cli_item) (rest : List String) :
    ∀ (o : compile_options) (arr : array_of String), o.input_paths = some arr →
      (∀ item ∈ items, item.accepted = true) →
      parse_loop (cli_words items ++ rest) o
        = (array_push_all arr (cli_inputs items)).bind (fun a =>
            parse_loop rest
              { input_paths := some a, output_path := cli_output items o.output_path }) := by
  induction items with
  | nil =>
    intro o arr hin _
    have ho : o = { input_paths := some arr, output_path := o.output_path } := by
      cases o; simp only at hin; rw [hin]
    show parse_loop rest o = parse_loop rest _
    exact congrArg _ ho
  | cons item items ih =>
    intro o arr hin hok
    have hok1 : ∀ it ∈ items, it.accepted = true :=
      fun it hit => hok it (List.mem_cons_of_mem _ hit)
    cases item with
    | input path =>
      show parse_loop ("-i" :: path :: (cli_words items ++ rest)) o = _
      rw [parse_loop_cons, if_pos rfl]
      show (match push_input_path o path with
        | none => none
        | some o1 => parse_loop (cli_words items ++ rest) o1) = _
      rw [push_input_path_some o arr path hin]
      show _ = (array_push_all arr (path :: cli_inputs items)).bind _
      rw [array_push_all_cons]
      cases hp : array_push arr path with
      | none => rfl
      | some a => exact ih _ a rfl hok1
    | output path =>
      show parse_loop ("-o" :: path :: (cli_words items ++ rest)) o = _
      rw [parse_loop_cons, if_neg (by decide), if_pos rfl]
      exact ih { o with output_path := some path } arr hin hok1
    | bare arg =>
      have hacc : starts_with_dash arg = false := by
        have := hok (.bare arg) (List.mem_cons_self _ _)
        simpa [cli_item.accepted] using this
      obtain ⟨hni, hno⟩ := starts_with_dash_ne_i arg hacc
      show parse_loop (arg :: (cli_words items ++ rest)) o = _
      rw [parse_loop_cons, if_neg hni, if_neg hno, hacc, if_neg (by decide),
        push_input_path_some o arr arg hin]
      show _ = (array_push_all arr (arg :: cli_inputs items)).bind _
      rw [array_push_all_cons]
      cases hp : array_push arr arg with
      | none => rfl
      | some a => exact ih _ a rfl hok1

/-- The loop stops with 1 at an argument that starts with a dash and is
neither `-i` nor `-o`. -/
theorem parse_loop_unknown (flag : String) (rest : List String) (o : compile_options)
    (hdash : starts_with_dash flag = true) (hi : flag ≠ "-i") (ho : flag ≠ "-o") :
    parse_loop (flag :: rest) o = some (1, o) := by
  rw [parse_loop_cons, if_neg hi, if_neg ho, if_pos hdash]

theorem parse_arguments_loop (prog : String) (args : List String)
    (o : compile_options) (hne : args ≠ []) :
    parse_arguments (prog :: args) o
      = (parse_loop args o).map (fun r => outcome.returned r) := by
  have hlen : ¬ (prog :: args).length = 1 := by
    cases args with
    | nil => exact absurd rfl hne
    | cons a as => simp
  unfold parse_arguments
  rw [if_neg hlen]
  show (match parse_loop args o with
    | none => none
    | some r => some (outcome.returned r)) = _
  cases parse_loop args o <;> rfl

theorem cli_words_ne_nil (items : List cli_item) (h : items ≠ []) :
    cli_words items ≠ [] := by
  cases items with
  | nil => exact absurd rfl h
  | cons item items => cases item <;> simp [cli_words, cli_item.words]

/-- C9 (amended): for every non-empty argument list `argv[1..]` that, read
left to right with each `-i` and each `-o` consuming the next argument as its
value, consists only of `-i <path>` pairs, `-o <path>` pairs and bare
arguments not starting with a dash, and that names at most `2139095040` input
paths, `parse_arguments` (starting from an empty input list) returns 0, the
input-path list equals the bare arguments and the `-i` values in command-line
order with duplicates kept, and `output_path` is the value of the last `-o`
(unchanged if there is none). -/
theorem parse_arguments_accepts (prog : String) (items : List cli_item)
    (out0 : Option String) (hne : items ≠ [])
    (hok : ∀ item ∈ items, item.accepted = true)
    (hN : (cli_inputs items).length ≤ CAPACITY_LIMIT) :
    ∃ paths, parse_arguments (prog :: cli_words items) (options_empty out0)
        = some (.returned
            (0, { input_paths := some paths, output_path := cli_output items out0 })) ∧
      paths.length = ((cli_inputs items).length : Int) ∧
      ∀ (i : Nat) (h : i < (cli_inputs items).length),
        array_get paths i = some ((cli_inputs items).get ⟨i, h⟩) := by
  obtain ⟨paths, hp, hh⟩ := array_push_all_holds (cli_inputs items) (array_init String) []
    (arrayHolds_init String) (by simpa using hN)
  rw [List.nil_append] at hh
  refine ⟨paths, ?_, hh.1, fun i h => array_get_holds paths _ hh i h⟩
  rw [parse_arguments_loop prog _ _ (cli_words_ne_nil items hne)]
  have hw := parse_loop_words items [] (options_empty out0) (array_init String) rfl hok
  rw [List.append_nil] at hw
  rw [hw, hp]
  rfl

/-- C9 (witness): the command line
`cx a.c -i -x -o out a.c -o o2`, with the dash-led value `-x`, a duplicate
path and two `-o`. -/
theorem parse_arguments_accepts_witness :
    cli_words cli_example = ["a.c", "-i", "-x", "-o", "out", "a.c", "-o", "o2"] ∧
    cli_inputs cli_example = ["a.c", "-x", "a.c"] ∧
    cli_output cli_example none = some "o2" ∧
    ∃ paths, parse_arguments ("cx" :: cli_words cli_example) (options_empty none)
        = some (.returned
            (0, { input_paths := some paths, output_path := cli_output cli_example none })) ∧
      paths.length = ((cli_inputs cli_example).length : Int) ∧
      ∀ (i : Nat) (h : i < (cli_inputs cli_example).length),
        array_get paths i = some ((cli_inputs cli_example).get ⟨i, h⟩) :=
  ⟨rfl, rfl, rfl,
   parse_arguments_accepts "cx" cli_example none (by decide) (by decide) (by decide)⟩

theorem cli_words_bare (n : Nat) (a : String) :
    cli_words (List.replicate n (.bare a)) = List.replicate n a := by
  induction n with
  | zero => rfl
  | succ m ih =>
    rw [List.replicate_succ, List.replicate_succ]
    show [a] ++ cli_words (List.replicate m (.bare a)) = _
    rw [ih]; rfl

theorem cli_inputs_bare (n : Nat) (a : String) :
    cli_inputs (List.replicate n (.bare a)) = List.replicate n a := by
  induction n with
  | zero => rfl
  | succ m ih =>
    rw [List.replicate_succ, List.replicate_succ]
    show a :: cli_inputs (List.replicate m (.bare a)) = _
    rw [ih]

/-- More bare arguments than the input list can take: the push that finds
`length = capacity = 2139095040` overflows, whatever follows. -/
theorem parse_loop_too_many (n : Nat) (hn : CAPACITY_LIMIT < n) (rest : List String)
    (out0 : Option String) :
    parse_loop (List.replicate n "a" ++ rest) (options_empty out0) = none := by
  have hok : ∀ item ∈ List.replicate n (cli_item.bare "a"), item.accepted = true := by
    intro item hitem
    rw [List.eq_of_mem_replicate hitem]
    decide
  have hw := parse_loop_words (List.replicate n (.bare "a")) rest (options_empty out0)
    (array_init String) rfl hok
  rw [cli_words_bare, cli_inputs_bare] at hw
  rw [hw, array_push_all_none (array_init String) [] (arrayHolds_init String) _
    (by rw [List.length_replicate]; simpa using hn) (Nat.zero_le _)]
  rfl

/-- C9 (counterexample): with no argument after the program name
`parse_arguments` does not return 0 but ends the process through `exit(0)`;
and with `2139095041` bare arguments the last push overflows `capacity*2`. -/
theorem parse_arguments_no_return :
    parse_arguments ["cx"] (options_empty none) = some (.exited 0) ∧
    parse_arguments ("cx" :: List.replicate 2139095041 "a") (options_empty none) = none := by
  refine ⟨rfl, ?_⟩
  have hne : List.replicate 2139095041 "a" ≠ [] := by
    rw [List.replicate_succ]; exact List.cons_ne_nil _ _
  rw [parse_arguments_loop "cx" _ _ hne]
  have h := parse_loop_too_many 2139095041 (by decide) [] none
  rw [List.append_nil] at h
  rw [h]
  rfl

/-- C10 (amended): for every argument list in which, reading `argv[1..]` left
to right with each `-i` and each `-o` consuming the next argument as its
value, accepted items naming at most `2139095040` input paths are followed by
an argument in flag position that begins with a dash and is neither `-i` nor
`-o`, `parse_arguments` (starting from an empty input list) returns 1. -/
theorem parse_arguments_unknown_flag (prog : String) (items : List cli_item)
    (flag : String) (rest : List String) (out0 : Option String)
    (hok : ∀ item ∈ items, item.accepted = true)
    (hdash : starts_with_dash flag = true) (hi : flag ≠ "-i") (ho : flag ≠ "-o")
    (hN : (cli_inputs items).length ≤ CAPACITY_LIMIT) :
    ∃ o, parse_arguments (prog :: (cli_words items ++ flag :: rest)) (options_empty out0)
      = some (.returned (1, o)) := by
  obtain ⟨paths, hp, _⟩ := array_push_all_holds (cli_inputs items) (array_init String) []
    (arrayHolds_init String) (by simpa using hN)
  refine ⟨{ input_paths := some paths, output_path := cli_output items out0 }, ?_⟩
  rw [parse_arguments_loop prog _ _
      (fun h => List.cons_ne_nil _ _ (List.append_eq_nil.mp h).2),
    parse_loop_words items (flag :: rest) (options_empty out0) (array_init String) rfl hok,
    hp]
  show (parse_loop (flag :: rest) _).map _ = _
  rw [parse_loop_unknown flag rest _ hdash hi ho]
  rfl

/-- C10 (witness): the command line
`cx a.c -i -x -o out a.c -o o2 -v b.c`, whose `-v` stands in flag position. -/
theorem parse_arguments_unknown_flag_witness :
    ∃ o, parse_arguments ("cx" :: (cli_words cli_example ++ "-v" :: ["b.c"]))
        (options_empty none)
      = some (.returned (1, o)) :=
  parse_arguments_unknown_flag "cx" cli_example "-v" ["b.c"] none (by decide)
    (by decide) (by decide) (by decide) (by decide)

/-- C10 (counterexample): in `cx -i -x` and in `cx -o -x` the argument `-x`
begins with a dash and is neither `-i` nor `-o`, yet it is taken as the value
of the flag before it and `parse_arguments` returns 0; and after `2139095041`
bare arguments the flag `-x` is never reached. -/
theorem parse_arguments_dash_value :
    (∃ o, parse_arguments ["cx", "-i", "-x"] (options_empty none)
      = some (.returned (0, o))) ∧
    parse_arguments ["cx", "-o", "-x"] (options_empty none)
      = some (.returned (0, options_empty (some "-x"))) ∧
    parse_arguments ("cx" :: (List.replicate 2139095041 "a" ++ ["-x"]))
      (options_empty none) = none := by
  refine ⟨?_, rfl, ?_⟩
  · obtain ⟨paths, hp, _⟩ := array_push_all_holds ["-x"] (array_init String) []
      (arrayHolds_init String) (by decide)
    have hw : parse_loop ["-i", "-x"] (options_empty none)
        = (array_push_all (array_init String) ["-x"]).bind (fun a =>
            parse_loop [] { input_paths := some a, output_path := none }) :=
      parse_loop_words [.input "-x"] [] (options_empty none) (array_init String) rfl
        (by decide)
    refine ⟨{ input_paths := some paths, output_path := none }, ?_⟩
    rw [parse_arguments_loop "cx" _ _ (List.cons_ne_nil _ _), hw, hp]
    rfl
  · rw [parse_arguments_loop "cx" _ _
        (fun h => List.cons_ne_nil _ _ (List.append_eq_nil.mp h).2),
      parse_loop_too_many 2139095041 (by decide) ["-x"] none]
    rfl

/-! ## The driver: what `lex_source_file` returns -/

/-- On a path that does not exist `lex_source_file` returns
`LEX_ERR_NO_SUCH_FILE` and changes nothing. -/
theorem lex_source_file_absent (fs : file_system) (path : String)
    (opt : compile_options) (st : lexer_state) (h : file_exists fs path = false) :
    lex_source_file fs path opt st = some (LEX_ERR_NO_SUCH_FILE, st) := by
  unfold lex_source_file init_lexer
  simp only [h, Bool.not_false, if_true]
  rfl

/-- The value `lex_source_file` returns is the value `init_lexer` returns. -/
theorem lex_source_file_eq_init (fs : file_system) (path : String)
    (opt : compile_options) (st : lexer_state) :
    lex_source_file fs path opt st = init_lexer fs path st := by
  unfold lex_source_file
  cases init_lexer fs path st with
  | none => rfl
  | some res =>
    obtain ⟨err, st1⟩ := res
    by_cases he : err = LEX_ERR_NONE
    · rw [he]
      exact if_neg (fun h => h rfl)
    · exact if_pos he

/-- What `init_lexer` does on a file that opens. -/
theorem init_lexer_readable (fs : file_system) (path : String) (st : lexer_state)
    (bytes : List char) (hf : fs path = .readable bytes) :
    init_lexer fs path st =
      if long_to_int (bytes.length : Int) < 0 then none
      else
        some (LEX_ERR_NONE,
          { st with
            current_source :=
              .block ((bytes.take (long_to_int (bytes.length : Int)).toNat).map some)
            source_end := long_to_int (bytes.length : Int)
            current_path := some path
            tokens := some (array_init token) }) := by
  have hex : file_exists fs path = true := by
    unfold file_exists; rw [hf]
  unfold init_lexer
  simp only [hex, hf, Bool.not_true, Bool.false_eq_true, if_false]

/-- On an entry that exists but does not open, `init_lexer` has no defined
result. -/
theorem init_lexer_unopenable (fs : file_system) (path : String) (st : lexer_state)
    (hf : fs path = .unopenable) : init_lexer fs path st = none := by
  have hex : file_exists fs path = true := by
    unfold file_exists; rw [hf]
  unfold init_lexer
  simp only [hex, hf, Bool.not_true, Bool.false_eq_true, if_false]

/-- On a file it gets through, `lex_source_file` returns `LEX_ERR_NONE`. -/
theorem lex_source_file_lexes (fs : file_system) (path : String)
    (opt : compile_options) (st : lexer_state) (h : lexes fs path = true) :
    ∃ st1, lex_source_file fs path opt st = some (LEX_ERR_NONE, st1) := by
  unfold lexes at h
  cases hf : fs path with
  | absent => rw [hf] at h; exact absurd h (by decide)
  | unopenable => rw [hf] at h; exact absurd h (by decide)
  | readable bytes =>
    rw [hf] at h
    have hsz : ¬ long_to_int (bytes.length : Int) < 0 :=
      not_lt.mpr (of_decide_eq_true h)
    rw [lex_source_file_eq_init, init_lexer_readable fs path st bytes hf, if_neg hsz]
    exact ⟨_, rfl⟩

/-- The two ways `lex_source_file` returns: `LEX_ERR_NO_SUCH_FILE` on a path
that does not exist, `LEX_ERR_NONE` on a file it gets through. -/
theorem lex_source_file_cases (fs : file_system) (path : String)
    (opt : compile_options) (st st1 : lexer_state) (err : Int)
    (h : lex_source_file fs path opt st = some (err, st1)) :
    (err = LEX_ERR_NO_SUCH_FILE ∧ file_exists fs path = false) ∨
    (err = LEX_ERR_NONE ∧ lexes fs path = true) := by
  cases hf : fs path with
  | absent =>
    left
    have hex : file_exists fs path = false := by
      unfold file_exists; rw [hf]
    rw [lex_source_file_absent fs path opt st hex] at h
    injection h with h
    injection h with h1 h2
    exact ⟨h1.symm, hex⟩
  | unopenable =>
    rw [lex_source_file_eq_init, init_lexer_unopenable fs path st hf] at h
    cases h
  | readable bytes =>
    right
    rw [lex_source_file_eq_init, init_lexer_readable fs path st bytes hf] at h
    by_cases hsz : long_to_int (bytes.length : Int) < 0
    · rw [if_pos hsz] at h
      cases h
    · rw [if_neg hsz] at h
      injection h with h
      injection h with h1 h2
      refine ⟨h1.symm, ?_⟩
      unfold lexes
      rw [hf]
      exact decide_eq_true (not_lt.mp hsz)

/-- The options passed to `lex_source_file` play no part. -/
theorem lex_source_file_options (fs : file_system) (path : String)
    (opt opt1 : compile_options) (st : lexer_state) :
    lex_source_file fs path opt st = lex_source_file fs path opt1 st := rfl

theorem lex_each_options (fs : file_system) (opt opt1 : compile_options)
    (ps : List String) :
    ∀ st, lex_each fs opt ps st = lex_each fs opt1 ps st := by
  induction ps with
  | nil => intro st; rfl
  | cons p rest ih =>
    intro st
    unfold lex_each
    rw [lex_source_file_options fs p opt opt1 st]
    cases lex_source_file fs p opt1 st with
    | none => rfl
    | some r =>
      obtain ⟨err, st1⟩ := r
      simp only [ih st1]

/-! ## The driver loop -/

theorem lex_each_cons_none (fs : file_system) (options : compile_options)
    (p : String) (rest : List String) (st : lexer_state)
    (h : lex_source_file fs p options st = none) :
    lex_each fs options (p :: rest) st = ([p], none) := by
  rw [lex_each, h]

theorem lex_each_cons_fail (fs : file_system) (options : compile_options)
    (p : String) (rest : List String) (st st1 : lexer_state) (err : Int)
    (h : lex_source_file fs p options st = some (err, st1)) (he : err ≠ LEX_ERR_NONE) :
    lex_each fs options (p :: rest) st = ([p], some 1) := by
  rw [lex_each, h]
  exact if_pos he

theorem lex_each_cons_ok (fs : file_system) (options : compile_options)
    (p : String) (rest : List String) (st st1 : lexer_state)
    (h : lex_source_file fs p options st = some (LEX_ERR_NONE, st1)) :
    lex_each fs options (p :: rest) st
      = (p :: (lex_each fs options rest st1).1, (lex_each fs options rest st1).2) := by
  rw [lex_each, h]
  exact if_neg (fun hne => hne rfl)

theorem lex_input_paths_skip (fs : file_system) (options : compile_options)
    (paths : array_of String) (r n : Nat) (st : lexer_state) (q : String)
    (hg : array_get paths n = some q) (hc : is_c_path q = false) :
    lex_input_paths fs options paths (r + 1) n st
      = lex_input_paths fs options paths r (n + 1) st := by
  rw [lex_input_paths, hg]
  simp only [hc, Bool.false_eq_true, if_false]

theorem lex_input_paths_none (fs : file_system) (options : compile_options)
    (paths : array_of String) (r n : Nat) (st : lexer_state) (q : String)
    (hg : array_get paths n = some q) (hc : is_c_path q = true)
    (h : lex_source_file fs q options st = none) :
    lex_input_paths fs options paths (r + 1) n st = ([q], none) := by
  rw [lex_input_paths, hg]
  simp only [hc, if_true, h]

theorem lex_input_paths_fail (fs : file_system) (options : compile_options)
    (paths : array_of String) (r n : Nat) (st st1 : lexer_state) (q : String)
    (err : Int) (hg : array_get paths n = some q) (hc : is_c_path q = true)
    (h : lex_source_file fs q options st = some (err, st1)) (he : err ≠ LEX_ERR_NONE) :
    lex_input_paths fs options paths (r + 1) n st = ([q], some 1) := by
  rw [lex_input_paths, hg]
  simp only [hc, if_true, h]
  exact if_pos he

theorem lex_input_paths_ok (fs : file_system) (options : compile_options)
    (paths : array_of String) (r n : Nat) (st st1 : lexer_state) (q : String)
    (hg : array_get paths n = some q) (hc : is_c_path q = true)
    (h : lex_source_file fs q options st = some (LEX_ERR_NONE, st1)) :
    lex_input_paths fs options paths (r + 1) n st
      = (q :: (lex_input_paths fs options paths r (n + 1) st1).1,
          (lex_input_paths fs options paths r (n + 1) st1).2) := by
  rw [lex_input_paths, hg]
  simp only [hc, if_true, h]
  exact if_neg (fun hne => hne rfl)

theorem bool_eq_false_of_ne_true {b : Bool} (h : ¬ b = true) : b = false := by
  cases b
  · rfl
  · exact absurd rfl h

/-- The loop of `main` over a sequence that holds `xs` is the run of
`lex_source_file` over the paths of `xs` that pass the extension test. -/
theorem lex_input_paths_eq (fs : file_system) (options : compile_options)
    (paths : array_of String) (xs : List String) (h : ArrayHolds paths xs) :
    ∀ (remaining n : Nat) (st : lexer_state), n + remaining = xs.length →
      lex_input_paths fs options paths remaining n st
        = lex_each fs options ((xs.drop n).filter is_c_path) st := by
  intro remaining
  induction remaining with
  | zero =>
    intro n st hn
    have : xs.drop n = [] := List.drop_eq_nil_of_le (by omega)
    rw [this]
    rfl
  | succ r ih =>
    intro n st hn
    have hlt : n < xs.length := by omega
    have hget : array_get paths n = some (xs.get ⟨n, hlt⟩) :=
      array_get_holds paths xs h n hlt
    have hdrop : xs.drop n = xs.get ⟨n, hlt⟩ :: xs.drop (n + 1) :=
      List.drop_eq_getElem_cons hlt
    rw [hdrop]
    generalize xs.get ⟨n, hlt⟩ = q at hget
    by_cases hc : is_c_path q = true
    · rw [List.filter_cons_of_pos hc]
      cases hl : lex_source_file fs q options st with
      | none =>
        rw [lex_input_paths_none fs options paths r n st q hget hc hl,
          lex_each_cons_none fs options q _ st hl]
      | some res =>
        obtain ⟨err, st1⟩ := res
        by_cases he : err = LEX_ERR_NONE
        · subst he
          rw [lex_input_paths_ok fs options paths r n st st1 q hget hc hl,
            lex_each_cons_ok fs options q _ st st1 hl, ih (n + 1) st1 (by omega)]
        · rw [lex_input_paths_fail fs options paths r n st st1 q err hget hc hl he,
            lex_each_cons_fail fs options q _ st st1 err hl he]
    · have hc' := bool_eq_false_of_ne_true hc
      rw [List.filter_cons_of_neg hc,
        lex_input_paths_skip fs options paths r n st q hget hc']
      exact ih (n + 1) st (by omega)

/-- Every path `lex_each` calls `lex_source_file` on comes from its list. -/
theorem lex_each_lexed_mem (fs : file_system) (options : compile_options)
    (ps : List String) :
    ∀ st, ∀ p ∈ (lex_each fs options ps st).1, p ∈ ps := by
  induction ps with
  | nil => intro st p hp; exact absurd hp (List.not_mem_nil _)
  | cons q rest ih =>
    intro st p hp
    cases hl : lex_source_file fs q options st with
    | none =>
      rw [lex_each_cons_none fs options q rest st hl] at hp
      rw [List.mem_singleton.mp hp]; exact List.mem_cons_self _ _
    | some res =>
      obtain ⟨err, st1⟩ := res
      by_cases he : err = LEX_ERR_NONE
      · subst he
        rw [lex_each_cons_ok fs options q rest st st1 hl] at hp
        rcases List.mem_cons.mp hp with h1 | h2
        · rw [h1]; exact List.mem_cons_self _ _
        · exact List.mem_cons_of_mem _ (ih st1 p h2)
      · rw [lex_each_cons_fail fs options q rest st st1 err hl he] at hp
        rw [List.mem_singleton.mp hp]; exact List.mem_cons_self _ _

/-- While the files lex, `lex_each` goes on: after paths that all lex, the
run is the run over what follows. -/
theorem lex_each_append (fs : file_system) (options : compile_options)
    (pre post : List String) (hpre : ∀ q ∈ pre, lexes fs q = true) :
    ∀ st, ∃ st1, lex_each fs options (pre ++ post) st
      = (pre ++ (lex_each fs options post st1).1, (lex_each fs options post st1).2) := by
  induction pre with
  | nil => intro st; exact ⟨st, rfl⟩
  | cons q rest ih =>
    intro st
    obtain ⟨st1, hq⟩ := lex_source_file_lexes fs q options st
      (hpre q (List.mem_cons_self _ _))
    obtain ⟨st2, hrest⟩ := ih (fun r hr => hpre r (List.mem_cons_of_mem _ hr)) st1
    refine ⟨st2, ?_⟩
    show lex_each fs options (q :: (rest ++ post)) st = _
    rw [lex_each_cons_ok fs options q _ st st1 hq, hrest]
    rfl

/-- The call on a path that does not exist ends the run with 1. -/
theorem lex_each_absent (fs : file_system) (options : compile_options)
    (p : String) (post : List String) (st : lexer_state)
    (h : file_exists fs p = false) :
    lex_each fs options (p :: post) st = ([p], some 1) :=
  lex_each_cons_fail fs options p post st st LEX_ERR_NO_SUCH_FILE
    (lex_source_file_absent fs p options st h) (by decide)

/-- The first path of the list is always called on. -/
theorem lex_each_head (fs : file_system) (options : compile_options)
    (p : String) (post : List String) (st : lexer_state) :
    ∃ more, (lex_each fs options (p :: post) st).1 = p :: more := by
  cases hl : lex_source_file fs p options st with
  | none => exact ⟨[], by rw [lex_each_cons_none fs options p post st hl]⟩
  | some res =>
    obtain ⟨err, st1⟩ := res
    by_cases he : err = LEX_ERR_NONE
    · subst he
      exact ⟨_, by rw [lex_each_cons_ok fs options p post st st1 hl]⟩
    · exact ⟨[], by rw [lex_each_cons_fail fs options p post st st1 err hl he]⟩

/-- When the run ends with 1, the last call was on a path that does not
exist. -/
theorem lex_input_paths_one (fs : file_system) (options : compile_options)
    (paths : array_of String) :
    ∀ (remaining n : Nat) (st : lexer_state),
      (lex_input_paths fs options paths remaining n st).2 = some 1 →
      ∃ p, (lex_input_paths fs options paths remaining n st).1.getLast? = some p ∧
        file_exists fs p = false := by
  intro remaining
  induction remaining with
  | zero =>
    intro n st h
    have h0 : (lex_input_paths fs options paths 0 n st).2 = some 0 := rfl
    rw [h0] at h
    exact absurd h (by decide)
  | succ r ih =>
    intro n st h
    cases hg : array_get paths n with
    | none =>
      have h0 : lex_input_paths fs options paths (r + 1) n st = ([], none) := by
        rw [lex_input_paths, hg]
      rw [h0] at h
      cases h
    | some q =>
      by_cases hc : is_c_path q = true
      · cases hl : lex_source_file fs q options st with
        | none =>
          rw [lex_input_paths_none fs options paths r n st q hg hc hl] at h
          cases h
        | some res =>
          obtain ⟨err, st1⟩ := res
          by_cases he : err = LEX_ERR_NONE
          · subst he
            rw [lex_input_paths_ok fs options paths r n st st1 q hg hc hl] at h ⊢
            obtain ⟨p, hp, hex⟩ := ih (n + 1) st1 h
            refine ⟨p, ?_, hex⟩
            show (q :: (lex_input_paths fs options paths r (n + 1) st1).1).getLast? = some p
            rw [List.getLast?_cons, hp]
            rfl
          · rw [lex_input_paths_fail fs options paths r n st st1 q err hg hc hl he]
            rcases lex_source_file_cases fs q options st st1 err hl with h1 | h2
            · exact ⟨q, rfl, h1.2⟩
            · exact absurd h2.1 he
      · have hc' := bool_eq_false_of_ne_true hc
        rw [lex_input_paths_skip fs options paths r n st q hg hc'] at h ⊢
        exact ih (n + 1) st h

/-! ## The driver: runs of `main` -/

theorem main_of_parse_failure (fs : file_system) (argv : List String)
    (options0 options : compile_options) (code : Int)
    (hparse : parse_arguments argv options0 = some (.returned (code, options)))
    (hcode : code ≠ 0) :
    main fs argv options0 = { lexed := [], result := some (.returned 1) } := by
  rw [main, hparse]
  exact if_pos hcode

theorem main_of_parse (fs : file_system) (argv : List String)
    (options0 options : compile_options) (paths : array_of String)
    (hparse : parse_arguments argv options0 = some (.returned (0, options)))
    (hpaths : options.input_paths = some paths) :
    main fs argv options0 =
      { lexed := (lex_input_paths fs options paths paths.length.toNat 0 lexer_init).1
        result := (lex_input_paths fs options paths paths.length.toNat 0 lexer_init).2.map
          (fun status => outcome.returned status) } := by
  rw [main, hparse]
  simp only [ne_eq, not_true_eq_false, if_false, hpaths]

/-- What `parse_arguments` leaves in the input list on the words of accepted
items, starting from an empty list. -/
theorem parse_arguments_holds (prog : String) (items : List cli_item)
    (out0 : Option String) (hne : items ≠ [])
    (hok : ∀ item ∈ items, item.accepted = true)
    (hN : (cli_inputs items).length ≤ CAPACITY_LIMIT) :
    ∃ paths, parse_arguments (prog :: cli_words items) (options_empty out0)
        = some (.returned
            (0, { input_paths := some paths, output_path := cli_output items out0 })) ∧
      ArrayHolds paths (cli_inputs items) := by
  obtain ⟨paths, hp, hh⟩ := array_push_all_holds (cli_inputs items) (array_init String) []
    (arrayHolds_init String) (by simpa using hN)
  rw [List.nil_append] at hh
  refine ⟨paths, ?_, hh⟩
  rw [parse_arguments_loop prog _ _ (cli_words_ne_nil items hne)]
  have hw := parse_loop_words items [] (options_empty out0) (array_init String) rfl hok
  rw [List.append_nil] at hw
  rw [hw, hp]
  rfl

/-- The run of `main` on the words of accepted items: `lex_source_file` is
called on the input paths that pass the extension test, in order, until a
call does not return `LEX_ERR_NONE`. -/
theorem main_run (fs : file_system) (prog : String) (items : List cli_item)
    (out0 : Option String) (hne : items ≠ [])
    (hok : ∀ item ∈ items, item.accepted = true)
    (hN : (cli_inputs items).length ≤ CAPACITY_LIMIT) :
    main fs (prog :: cli_words items) (options_empty out0) =
      { lexed := (lex_each fs (options_empty out0)
          ((cli_inputs items).filter is_c_path) lexer_init).1
        result := (lex_each fs (options_empty out0)
          ((cli_inputs items).filter is_c_path) lexer_init).2.map
            (fun status => outcome.returned status) } := by
  obtain ⟨paths, hparse, hh⟩ := parse_arguments_holds prog items out0 hne hok hN
  have hlen : paths.length.toNat = (cli_inputs items).length := by
    rw [hh.1]; exact Int.toNat_ofNat _
  rw [main_of_parse fs _ _ _ paths hparse rfl, hlen,
    lex_input_paths_eq fs _ paths (cli_inputs items) hh (cli_inputs items).length 0
      lexer_init (Nat.zero_add _),
    List.drop_zero, lex_each_options fs _ (options_empty out0)]

theorem filter_split (pre post : List String) (p : String) (hp : is_c_path p = true) :
    (pre ++ p :: post).filter is_c_path
      = pre.filter is_c_path ++ p :: post.filter is_c_path := by
  rw [List.filter_append, List.filter_cons_of_pos hp]

/-- The run of `lex_each` up to a path of the list that passes the extension
test, when the paths before it that pass the test all lex. -/
theorem lex_each_reaches (fs : file_system) (options : compile_options)
    (pre post : List String) (p : String) (st : lexer_state)
    (hpre : ∀ q ∈ pre, extension q = "c" → lexes fs q = true)
    (hp : extension p = "c") :
    ∃ st1, lex_each fs options ((pre ++ p :: post).filter is_c_path) st
      = (pre.filter is_c_path
            ++ (lex_each fs options (p :: post.filter is_c_path) st1).1,
          (lex_each fs options (p :: post.filter is_c_path) st1).2) := by
  have hpc : is_c_path p = true := decide_eq_true hp
  have hlex : ∀ q ∈ pre.filter is_c_path, lexes fs q = true := by
    intro q hq
    obtain ⟨hq1, hq2⟩ := List.mem_filter.mp hq
    exact hpre q hq1 (of_decide_eq_true hq2)
  rw [filter_split pre post p hpc]
  exact lex_each_append fs options _ _ hlex st

theorem after_last_dot_none (l : List Char) (h : '.' ∉ l) : after_last_dot l = none := by
  induction l with
  | nil => rfl
  | cons c rest ih =>
    have hc : c ≠ '.' := fun hc => h (hc ▸ List.mem_cons_self _ _)
    have hrest : '.' ∉ rest := fun hr => h (List.mem_cons_of_mem _ hr)
    rw [after_last_dot, ih hrest]
    exact if_neg hc

theorem after_last_dot_append (a e : List Char) (h : '.' ∉ e) :
    after_last_dot (a ++ '.' :: e) = some e := by
  induction a with
  | nil =>
    show after_last_dot ('.' :: e) = some e
    rw [after_last_dot, after_last_dot_none e h]
    exact if_pos rfl
  | cons c rest ih =>
    show after_last_dot (c :: (rest ++ '.' :: e)) = some e
    rw [after_last_dot, ih]

/-- The extension of a path with no dot after `a.` is what follows `a.`. -/
theorem extension_after_dot (a e : String) (h : '.' ∉ e.data) :
    extension (a ++ "." ++ e) = e := by
  have hd : (a ++ "." ++ e).data = a.data ++ '.' :: e.data := by
    simp [String.data_append]
  unfold extension
  rw [hd, after_last_dot_append a.data e.data h]

/-- The extension of a path with no dot is the empty string. -/
theorem extension_no_dot (p : String) (h : '.' ∉ p.data) : extension p = "" := by
  unfold extension
  rw [after_last_dot_none p.data h]

/-! ## Claims about the driver -/

/-- C11 (amended): for every input path `p` that the driver reaches (every
input path before it with extension `c` exists and lexes), the driver invokes
`lex_source_file` on `p` if and only if `extension(p)` equals `"c"`: every
call is on an input path with extension `c`, every reached input path with
extension `c` is called on, in order, and command lines whose input paths
with extension `c` agree have the same run, so a skipped path causes no error
and does not change the exit status.  `extension(p)` is the substring of `p`
after its last dot and the empty string when `p` contains no dot; the
comparison is case-sensitive (`x.C` is skipped). -/
theorem driver_lexes_by_extension (fs : file_system) (prog : String)
    (items : List cli_item) (out0 : Option String) (hne : items ≠ [])
    (hok : ∀ item ∈ items, item.accepted = true)
    (hN : (cli_inputs items).length ≤ CAPACITY_LIMIT) :
    (∀ p ∈ (main fs (prog :: cli_words items) (options_empty out0)).lexed,
      extension p = "c" ∧ p ∈ cli_inputs items) ∧
    (∀ pre p post, cli_inputs items = pre ++ p :: post →
      (∀ q ∈ pre, extension q = "c" → lexes fs q = true) → extension p = "c" →
      ∃ more, (main fs (prog :: cli_words items) (options_empty out0)).lexed
        = pre.filter is_c_path ++ p :: more) ∧
    (∀ items1 : List cli_item, items1 ≠ [] →
      (∀ item ∈ items1, item.accepted = true) →
      (cli_inputs items1).length ≤ CAPACITY_LIMIT →
      (cli_inputs items1).filter is_c_path = (cli_inputs items).filter is_c_path →
      main fs (prog :: cli_words items1) (options_empty out0)
        = main fs (prog :: cli_words items) (options_empty out0)) ∧
    (∀ a e : String, '.' ∉ e.data → extension (a ++ "." ++ e) = e) ∧
    (∀ p : String, '.' ∉ p.data → extension p = "") ∧
    extension "x.C" = "C" ∧ is_c_path "x.C" = false := by
  have hrun := main_run fs prog items out0 hne hok hN
  refine ⟨?_, ?_, ?_, extension_after_dot, extension_no_dot, by decide, by decide⟩
  · intro p hp
    rw [hrun] at hp
    have hmem := lex_each_lexed_mem fs (options_empty out0) _ lexer_init p hp
    obtain ⟨h1, h2⟩ := List.mem_filter.mp hmem
    exact ⟨of_decide_eq_true h2, h1⟩
  · intro pre p post hsplit hpre hp
    obtain ⟨st1, hreach⟩ := lex_each_reaches fs (options_empty out0) pre post p lexer_init
      hpre hp
    obtain ⟨more, hmore⟩ := lex_each_head fs (options_empty out0) p
      (post.filter is_c_path) st1
    refine ⟨more, ?_⟩
    rw [hrun, hsplit]
    show (lex_each fs (options_empty out0) ((pre ++ p :: post).filter is_c_path)
      lexer_init).1 = _
    rw [hreach, hmore]
  · intro items1 hne1 hok1 hN1 hsame
    rw [hrun, main_run fs prog items1 out0 hne1 hok1 hN1, hsame]

/-- C11 (witness): the command line `cx a.c notes.txt x.C b.c`. -/
theorem driver_lexes_by_extension_witness :
    (driver_items ≠ [] ∧ (cli_inputs driver_items).length ≤ CAPACITY_LIMIT) ∧
    (∀ p ∈ (main driver_fs ("cx" :: cli_words driver_items) (options_empty none)).lexed,
      extension p = "c" ∧ p ∈ cli_inputs driver_items) ∧
    (∀ pre p post, cli_inputs driver_items = pre ++ p :: post →
      (∀ q ∈ pre, extension q = "c" → lexes driver_fs q = true) → extension p = "c" →
      ∃ more, (main driver_fs ("cx" :: cli_words driver_items) (options_empty none)).lexed
        = pre.filter is_c_path ++ p :: more) ∧
    (∀ items1 : List cli_item, items1 ≠ [] →
      (∀ item ∈ items1, item.accepted = true) →
      (cli_inputs items1).length ≤ CAPACITY_LIMIT →
      (cli_inputs items1).filter is_c_path = (cli_inputs driver_items).filter is_c_path →
      main driver_fs ("cx" :: cli_words items1) (options_empty none)
        = main driver_fs ("cx" :: cli_words driver_items) (options_empty none)) ∧
    (∀ a e : String, '.' ∉ e.data → extension (a ++ "." ++ e) = e) ∧
    (∀ p : String, '.' ∉ p.data → extension p = "") ∧
    extension "x.C" = "C" ∧ is_c_path "x.C" = false :=
  ⟨⟨by decide, by decide⟩,
   driver_lexes_by_extension driver_fs "cx" driver_items none (by decide) (by decide)
     (by decide)⟩

/-- The run of `main` on `cx a.c gone.c b.c` in `driver_fs`. -/
theorem main_missing_run :
    main driver_fs ["cx", "a.c", "gone.c", "b.c"] (options_empty none)
      = { lexed := ["a.c", "gone.c"], result := some (.returned 1) } := by
  have hrun := main_run driver_fs "cx" missing_items none (by decide) (by decide)
    (by decide)
  have hfilter : (cli_inputs missing_items).filter is_c_path = ["a.c", "gone.c", "b.c"] := by
    decide
  obtain ⟨st1, h1⟩ := lex_each_append driver_fs (options_empty none) ["a.c"]
    ["gone.c", "b.c"] (by decide) lexer_init
  have h2 := lex_each_absent driver_fs (options_empty none) "gone.c" ["b.c"] st1
    (by decide)
  rw [hfilter] at hrun
  rw [show (["a.c", "gone.c", "b.c"] : List String) = ["a.c"] ++ ["gone.c", "b.c"] from rfl,
    h1, h2] at hrun
  exact hrun

/-- C11 (counterexample): in the command line `cx a.c gone.c b.c` the input
path `b.c` has extension `c` and its file exists, yet `lex_source_file` is not
invoked on it: the run ends at the missing `gone.c`. -/
theorem driver_skips_c_path :
    extension "b.c" = "c" ∧ lexes driver_fs "b.c" = true ∧
    "b.c" ∉ (main driver_fs ["cx", "a.c", "gone.c", "b.c"] (options_empty none)).lexed := by
  refine ⟨by decide, by decide, ?_⟩
  rw [main_missing_run]
  decide

/-- C15 (amended): when lexing of a `.c` input path fails with
`LEX_ERR_NO_SUCH_FILE`, the driver returns 1 at once: `lex_source_file` has
been invoked on the input paths with extension `c` up to and including the
missing one, and on none of the later input paths. -/
theorem driver_stops_at_missing (fs : file_system) (prog : String)
    (items : List cli_item) (out0 : Option String) (hne : items ≠ [])
    (hok : ∀ item ∈ items, item.accepted = true)
    (hN : (cli_inputs items).length ≤ CAPACITY_LIMIT)
    (pre post : List String) (p : String)
    (hsplit : cli_inputs items = pre ++ p :: post)
    (hpre : ∀ q ∈ pre, extension q = "c" → lexes fs q = true)
    (hp : extension p = "c") (hmiss : file_exists fs p = false) :
    (main fs (prog :: cli_words items) (options_empty out0)).lexed
      = pre.filter is_c_path ++ [p] ∧
    (main fs (prog :: cli_words items) (options_empty out0)).result
      = some (.returned 1) := by
  have hrun := main_run fs prog items out0 hne hok hN
  obtain ⟨st1, hreach⟩ := lex_each_reaches fs (options_empty out0) pre post p lexer_init
    hpre hp
  have hstop := lex_each_absent fs (options_empty out0) p (post.filter is_c_path) st1 hmiss
  rw [hsplit, hreach, hstop] at hrun
  rw [hrun]
  exact ⟨rfl, rfl⟩

/-- C15 (witness): the command line `cx a.c gone.c b.c`, where `gone.c` is
missing and `b.c` follows it. -/
theorem driver_stops_at_missing_witness :
    (cli_inputs missing_items = ["a.c"] ++ "gone.c" :: ["b.c"] ∧
      extension "gone.c" = "c" ∧ file_exists driver_fs "gone.c" = false) ∧
    (main driver_fs ("cx" :: cli_words missing_items) (options_empty none)).lexed
      = (["a.c"] : List String).filter is_c_path ++ ["gone.c"] ∧
    (main driver_fs ("cx" :: cli_words missing_items) (options_empty none)).result
      = some (.returned 1) :=
  ⟨⟨rfl, by decide, by decide⟩,
   driver_stops_at_missing driver_fs "cx" missing_items none (by decide) (by decide)
     (by decide) ["a.c"] ["b.c"] "gone.c" rfl (by decide) (by decide) (by decide)⟩

/-- C15 (counterexample): in `cx gone.c b.c` the missing `gone.c` is followed
by the `.c` path `b.c`, whose file exists; the driver returns 1 after the call
on `gone.c` and `lex_source_file` is never invoked on `b.c`. -/
theorem driver_does_not_continue :
    file_exists driver_fs "gone.c" = false ∧ is_c_path "b.c" = true ∧
    main driver_fs ["cx", "gone.c", "b.c"] (options_empty none)
      = { lexed := ["gone.c"], result := some (.returned 1) } ∧
    "b.c" ∉ (main driver_fs ["cx", "gone.c", "b.c"] (options_empty none)).lexed := by
  have hrun := main_run driver_fs "cx" [.bare "gone.c", .bare "b.c"] none (by decide)
    (by decide) (by decide)
  have hfilter : (cli_inputs [.bare "gone.c", .bare "b.c"]).filter is_c_path
      = ["gone.c", "b.c"] := by decide
  have h2 := lex_each_absent driver_fs (options_empty none) "gone.c" ["b.c"] lexer_init
    (by decide)
  rw [hfilter, h2] at hrun
  have hmain : main driver_fs ["cx", "gone.c", "b.c"] (options_empty none)
      = { lexed := ["gone.c"], result := some (.returned 1) } := hrun
  refine ⟨by decide, by decide, hmain, ?_⟩
  rw [hmain]
  decide

/-- C12 (evaluation at the failing input): when the driver reaches a `.c`
input path whose file exists but does not open, `lex_source_file` is invoked
on it and `init_lexer` calls `fclose` on the null stream: the run has no
defined result, and in particular `main` does not return 1.  The value
`init_lexer` would return after that call is the literal 1, which is
`LEX_ERR_NONE`, not an error code. -/
theorem main_open_failure (fs : file_system) (prog : String)
    (items : List cli_item) (out0 : Option String) (hne : items ≠ [])
    (hok : ∀ item ∈ items, item.accepted = true)
    (hN : (cli_inputs items).length ≤ CAPACITY_LIMIT)
    (pre post : List String) (p : String)
    (hsplit : cli_inputs items = pre ++ p :: post)
    (hpre : ∀ q ∈ pre, extension q = "c" → lexes fs q = true)
    (hp : extension p = "c") (hopen : fs p = .unopenable) :
    file_exists fs p = true ∧
    (main fs (prog :: cli_words items) (options_empty out0)).lexed
      = pre.filter is_c_path ++ [p] ∧
    (main fs (prog :: cli_words items) (options_empty out0)).result = none ∧
    (main fs (prog :: cli_words items) (options_empty out0)).result
      ≠ some (.returned 1) ∧
    LEX_ERR_NONE = 1 := by
  have hrun := main_run fs prog items out0 hne hok hN
  obtain ⟨st1, hreach⟩ := lex_each_reaches fs (options_empty out0) pre post p lexer_init
    hpre hp
  have hlex : lex_source_file fs p (options_empty out0) st1 = none := by
    rw [lex_source_file_eq_init, init_lexer_unopenable fs p st1 hopen]
  have hstop := lex_each_cons_none fs (options_empty out0) p (post.filter is_c_path) st1 hlex
  have hex : file_exists fs p = true := by
    unfold file_exists; rw [hopen]
  rw [hsplit, hreach, hstop] at hrun
  rw [hrun]
  exact ⟨hex, rfl, rfl, fun h => Option.noConfusion h, rfl⟩

/-- C12 (witness): the command line `cx a.c locked.c b.c`, where `locked.c`
exists but does not open. -/
theorem main_open_failure_witness :
    (cli_inputs locked_items = ["a.c"] ++ "locked.c" :: ["b.c"] ∧
      extension "locked.c" = "c" ∧ driver_fs "locked.c" = .unopenable) ∧
    file_exists driver_fs "locked.c" = true ∧
    (main driver_fs ("cx" :: cli_words locked_items) (options_empty none)).lexed
      = (["a.c"] : List String).filter is_c_path ++ ["locked.c"] ∧
    (main driver_fs ("cx" :: cli_words locked_items) (options_empty none)).result = none ∧
    (main driver_fs ("cx" :: cli_words locked_items) (options_empty none)).result
      ≠ some (.returned 1) ∧
    LEX_ERR_NONE = 1 :=
  ⟨⟨rfl, by decide, rfl⟩,
   main_open_failure driver_fs "cx" locked_items none (by decide) (by decide)
     (by decide) ["a.c"] ["b.c"] "locked.c" rfl (by decide) (by decide) rfl⟩

/-- C17 (amended): `lex_source_file(path, opt)` returns `LEX_ERR_NO_SUCH_FILE`
if and only if `file_exists(path)` is false; it returns `LEX_ERR_NONE` when the
file opens and the size `ftell` reports is not negative as an `int`; whenever
it returns, the value is one of these two (the literal 1 of `init_lexer` is
`LEX_ERR_NONE`).  Consequently a value other than `LEX_ERR_NONE` is always
`LEX_ERR_NO_SUCH_FILE`, the generic branch of the driver is never taken, and
when `main` returns 1 either argument parsing failed or the last call of
`lex_source_file` was on a path that does not exist: never for an open
failure. -/
theorem lex_source_file_result (fs : file_system) (path : String)
    (opt : compile_options) (st : lexer_state) :
    (file_exists fs path = false →
      lex_source_file fs path opt st = some (LEX_ERR_NO_SUCH_FILE, st)) ∧
    (∀ err st1, lex_source_file fs path opt st = some (err, st1) →
      (err = LEX_ERR_NO_SUCH_FILE ↔ file_exists fs path = false) ∧
      (err ≠ LEX_ERR_NONE → err = LEX_ERR_NO_SUCH_FILE) ∧
      (err = LEX_ERR_NO_SUCH_FILE ∨ err = LEX_ERR_NONE)) ∧
    (lexes fs path = true →
      ∃ st1, lex_source_file fs path opt st = some (LEX_ERR_NONE, st1)) ∧
    LEX_ERR_NONE = 1 ∧
    (∀ (argv : List String) (options0 : compile_options),
      (main fs argv options0).result = some (.returned 1) →
      (∃ code options, parse_arguments argv options0 = some (.returned (code, options)) ∧
        code ≠ 0) ∨
      ∃ p, (main fs argv options0).lexed.getLast? = some p ∧
        file_exists fs p = false) := by
  refine ⟨lex_source_file_absent fs path opt st, ?_, lex_source_file_lexes fs path opt st,
    rfl, ?_⟩
  · intro err st1 h
    rcases lex_source_file_cases fs path opt st st1 err h with ⟨h1, h2⟩ | ⟨h1, h2⟩
    · exact ⟨⟨fun _ => h2, fun _ => h1⟩, fun _ => h1, Or.inl h1⟩
    · have hex : file_exists fs path = true := by
        unfold lexes at h2
        unfold file_exists
        cases hf : fs path with
        | absent => rw [hf] at h2; exact absurd h2 (by decide)
        | unopenable => rfl
        | readable bytes => rfl
      have hne : err ≠ LEX_ERR_NO_SUCH_FILE := by rw [h1]; decide
      refine ⟨⟨fun h0 => absurd h0 hne, fun h0 => ?_⟩, fun h0 => absurd h1 h0, Or.inr h1⟩
      rw [hex] at h0
      exact absurd h0 (by decide)
  · intro argv options0 hres
    cases hparse : parse_arguments argv options0 with
    | none =>
      have hm : main fs argv options0 = { lexed := [], result := none } := by
        rw [main, hparse]
      rw [hm] at hres
      cases hres
    | some out =>
      cases out with
      | exited status =>
        have hm : main fs argv options0
            = { lexed := [], result := some (.exited status) } := by
          rw [main, hparse]
        rw [hm] at hres
        injection hres with hres
        cases hres
      | returned r =>
        obtain ⟨code, options⟩ := r
        by_cases hcode : code = 0
        · subst hcode
          cases hpaths : options.input_paths with
          | none =>
            have hm : main fs argv options0 = { lexed := [], result := none } := by
              rw [main, hparse]
              simp only [ne_eq, not_true_eq_false, if_false, hpaths]
            rw [hm] at hres
            cases hres
          | some paths =>
            right
            rw [main_of_parse fs argv options0 options paths hparse hpaths] at hres ⊢
            have hone : (lex_input_paths fs options paths paths.length.toNat 0
                lexer_init).2 = some 1 := by
              cases h2 : (lex_input_paths fs options paths paths.length.toNat 0 lexer_init).2 with
              | none =>
                simp only [h2, Option.map_none'] at hres
                cases hres
              | some status =>
                simp only [h2, Option.map_some', Option.some.injEq,
                  outcome.returned.injEq] at hres
                rw [hres]
            exact lex_input_paths_one fs options paths _ 0 lexer_init hone
        · left
          exact ⟨code, options, rfl, hcode⟩

/-- C17 (counterexample): `locked.c` exists but does not open; on it
`init_lexer` calls `fclose` on the null stream and `lex_source_file` has no
defined result, so it does not return `LEX_ERR_NONE`. -/
theorem lex_source_file_open_failure :
    file_exists driver_fs "locked.c" = true ∧
    lex_source_file driver_fs "locked.c" (options_empty none) lexer_init = none ∧
    ∀ st1, lex_source_file driver_fs "locked.c" (options_empty none) lexer_init
      ≠ some (LEX_ERR_NONE, st1) := by
  have h : lex_source_file driver_fs "locked.c" (options_empty none) lexer_init = none := by
    rw [lex_source_file_eq_init, init_lexer_unopenable driver_fs "locked.c" lexer_init rfl]
  refine ⟨by decide, h, ?_⟩
  intro st1 h1
  rw [h] at h1
  cases h1

/-! ## Claims about the cursor and the capacity -/

/-- C13: for every cursor state, `save_lexer_position()` sets the mark cursor
equal to the live cursor (`pline = lline`, `pcol = lcol`, `ppos = lpos`) and
leaves the live cursor (`lline`, `lcol`, `lpos`) and every other variable of
the lexer unchanged; calling it twice in a row gives the same state as calling
it once. -/
theorem save_lexer_position_effect (st : lexer_state) :
    (save_lexer_position st).pline = st.lline ∧
    (save_lexer_position st).pcol = st.lcol ∧
    (save_lexer_position st).ppos = st.lpos ∧
    (save_lexer_position st).lline = st.lline ∧
    (save_lexer_position st).lcol = st.lcol ∧
    (save_lexer_position st).lpos = st.lpos ∧
    (save_lexer_position st).current_source = st.current_source ∧
    (save_lexer_position st).source_end = st.source_end ∧
    (save_lexer_position st).current_path = st.current_path ∧
    (save_lexer_position st).current_token = st.current_token ∧
    (save_lexer_position st).tokens = st.tokens ∧
    save_lexer_position (save_lexer_position st) = save_lexer_position st :=
  ⟨rfl, rfl, rfl, rfl, rfl, rfl, rfl, rfl, rfl, rfl, rfl, rfl⟩

theorem int_of_some_eq {x y : Int} (h : int_of x = some y) : y = x := by
  unfold int_of at h
  split at h
  · injection h with h
    exact h.symm
  · cases h

/-- The store of `name##_push` leaves `capacity` as it is. -/
theorem array_store_capacity {T : Type} (arr arr1 : array_of T) (x : T)
    (h : array_store arr x = some arr1) : arr1.capacity = arr.capacity := by
  unfold array_store at h
  split at h
  · split at h
    · cases h
    · injection h with h
      rw [← h]
  · cases h

/-- The growth branch of `name##_push` doubles `capacity`. -/
theorem array_grow_capacity {T : Type} (arr grown : array_of T)
    (h : array_grow arr = some grown) : grown.capacity = arr.capacity * 2 := by
  unfold array_grow at h
  split at h
  · cases h
  · rename_i new_capacity hio
    have hnew := int_of_some_eq hio
    split at h
    · cases h
    · split at h
      · cases h
      · injection h with h
        rw [← h, ← hnew]

/-- A push that succeeds doubles `capacity` when `length ≥ capacity` before
it and leaves `capacity` unchanged otherwise. -/
theorem array_push_capacity {T : Type} (arr arr1 : array_of T) (x : T)
    (h : array_push arr x = some arr1) :
    arr1.capacity = if arr.length ≥ arr.capacity then arr.capacity * 2 else arr.capacity := by
  unfold array_push at h
  by_cases hge : arr.length ≥ arr.capacity
  · rw [if_pos hge] at h ⊢
    cases hg : array_grow arr with
    | none => rw [hg] at h; cases h
    | some grown =>
      rw [hg] at h
      rw [array_store_capacity grown arr1 x h, array_grow_capacity arr grown hg]
  · rw [if_neg hge] at h ⊢
    exact array_store_capacity arr arr1 x h

/-- A length whose capacity `255 * 2^k` fits an `int` is within the limit. -/
theorem length_in_range (n : Nat)
    (h : ∃ k : Nat, n ≤ 255 * 2 ^ k ∧ ((255 * 2 ^ k : Nat) : Int) ≤ INT_MAX) :
    n ≤ CAPACITY_LIMIT := by
  obtain ⟨k, hn, hk⟩ := h
  have hk23 : k ≤ 23 := by
    by_contra hcon
    have h24 : 24 ≤ k := by omega
    have hp : 2 ^ 24 ≤ 2 ^ k := Nat.pow_le_pow_right (by decide) h24
    have hm : 255 * 2 ^ 24 ≤ 255 * 2 ^ k := Nat.mul_le_mul_left _ hp
    have hnat : 255 * 2 ^ k ≤ 2147483647 := by
      have : ((255 * 2 ^ k : Nat) : Int) ≤ 2147483647 := hk
      exact_mod_cast this
    have : 255 * 2 ^ 24 ≤ 2147483647 := le_trans hm hnat
    exact absurd this (by decide)
  exact le_trans hn (pow_le_limit hk23)

/-- C14: for every `N ≥ 0` whose capacity lies inside the 32-bit `int` range,
after `init_<name>()` followed by `N` pushes the sequence satisfies
`0 ≤ length = N ≤ capacity` and `capacity = 255 * 2^k` for the least `k ≥ 0`
with `255 * 2^k ≥ N`: the initial capacity is 255, a further push (inside the
same range) doubles `capacity` exactly when `length` equals `capacity` before
the push, and `capacity` never decreases. -/
theorem array_capacity_invariant {T : Type} (xs : List T)
    (hrange : ∃ k : Nat, xs.length ≤ 255 * 2 ^ k ∧ ((255 * 2 ^ k : Nat) : Int) ≤ INT_MAX) :
    (array_init T).length = 0 ∧ (array_init T).capacity = 255 ∧
    ∃ arr k, array_push_all (array_init T) xs = some arr ∧
      0 ≤ arr.length ∧ arr.length = (xs.length : Int) ∧ arr.length ≤ arr.capacity ∧
      arr.capacity = ((255 * 2 ^ k : Nat) : Int) ∧ xs.length ≤ 255 * 2 ^ k ∧
      (∀ j : Nat, xs.length ≤ 255 * 2 ^ j → k ≤ j) ∧
      ∀ x : T,
        (∃ k1 : Nat, xs.length + 1 ≤ 255 * 2 ^ k1 ∧ ((255 * 2 ^ k1 : Nat) : Int) ≤ INT_MAX) →
        ∃ arr1, array_push arr x = some arr1 ∧
          arr1.capacity = (if arr.length = arr.capacity then 2 * arr.capacity
            else arr.capacity) ∧
          arr.capacity ≤ arr1.capacity := by
  have hN := length_in_range xs.length hrange
  obtain ⟨arr, hp, hh⟩ := array_push_all_holds xs (array_init T) [] (arrayHolds_init T)
    (by simpa using hN)
  rw [List.nil_append] at hh
  have hholds := hh
  obtain ⟨hlen, k, c, hk, hc, hcap, hle, hleast, hdata⟩ := hh
  refine ⟨rfl, rfl, arr, k, hp, by rw [hlen]; omega, hlen, by rw [hlen, hcap]; omega,
    by rw [hcap, hc], by rw [← hc]; exact hle, ?_, ?_⟩
  · intro j hj
    rcases hleast with h0 | h1
    · omega
    · by_contra hcon
      have hjk : j + 1 ≤ k := by omega
      have hpw : 2 ^ (j + 1) ≤ 2 ^ k := Nat.pow_le_pow_right (by decide) hjk
      have hm : 255 * 2 ^ (j + 1) ≤ 255 * 2 ^ k := Nat.mul_le_mul_left _ hpw
      have he : 255 * 2 ^ (j + 1) = 2 * (255 * 2 ^ j) := by ring
      omega
  · intro x hrange1
    have hN1 := length_in_range (xs.length + 1) hrange1
    obtain ⟨arr1, hp1, _⟩ := array_push_holds arr xs x hholds (by omega)
    have hcap1 := array_push_capacity arr arr1 x hp1
    have hcpos : (0 : Int) ≤ arr.capacity := by rw [hcap]; omega
    refine ⟨arr1, hp1, ?_, ?_⟩
    · by_cases hfull : arr.length = arr.capacity
      · rw [if_pos hfull]
        rw [if_pos (by omega : arr.length ≥ arr.capacity)] at hcap1
        omega
      · rw [if_neg hfull]
        have hlt : ¬ arr.length ≥ arr.capacity := by
          rw [hlen, hcap] at hfull ⊢
          omega
        rw [if_neg hlt] at hcap1
        exact hcap1
    · by_cases hge : arr.length ≥ arr.capacity
      · rw [if_pos hge] at hcap1; omega
      · rw [if_neg hge] at hcap1; omega

/-- C14 (witness): 600 elements; the capacity `255 * 2^2 = 1020` lies inside
the `int` range. -/
theorem array_capacity_invariant_witness :
    (∃ k : Nat, (List.range 600).length ≤ 255 * 2 ^ k ∧
      ((255 * 2 ^ k : Nat) : Int) ≤ INT_MAX) ∧
    (array_init Nat).length = 0 ∧ (array_init Nat).capacity = 255 ∧
    ∃ arr k, array_push_all (array_init Nat) (List.range 600) = some arr ∧
      0 ≤ arr.length ∧ arr.length = ((List.range 600).length : Int) ∧
      arr.length ≤ arr.capacity ∧
      arr.capacity = ((255 * 2 ^ k : Nat) : Int) ∧ (List.range 600).length ≤ 255 * 2 ^ k ∧
      (∀ j : Nat, (List.range 600).length ≤ 255 * 2 ^ j → k ≤ j) ∧
      ∀ x : Nat,
        (∃ k1 : Nat, (List.range 600).length + 1 ≤ 255 * 2 ^ k1 ∧
          ((255 * 2 ^ k1 : Nat) : Int) ≤ INT_MAX) →
        ∃ arr1, array_push arr x = some arr1 ∧
          arr1.capacity = (if arr.length = arr.capacity then 2 * arr.capacity
            else arr.capacity) ∧
          arr.capacity ≤ arr1.capacity :=
  ⟨⟨2, by rw [List.length_range]; decide, by decide⟩,
   array_capacity_invariant (List.range 600)
     ⟨2, by rw [List.length_range]; decide, by decide⟩⟩

/-! ## Claims about argument parsing: the return value -/

theorem cli_rejected_cons (arg : String) (rest : List String) :
    cli_rejected (arg :: rest) =
      if arg = "-i" ∨ arg = "-o" then
        match rest with
        | [] => true
        | _ :: rest1 => cli_rejected rest1
      else if starts_with_dash arg then true
      else cli_rejected rest := by
  rw [cli_rejected.eq_def]

theorem cli_read_inputs_cons (arg : String) (rest : List String) :
    cli_read_inputs (arg :: rest) =
      if arg = "-i" then
        match rest with
        | [] => []
        | value :: rest1 => value :: cli_read_inputs rest1
      else if arg = "-o" then
        match rest with
        | [] => []
        | _ :: rest1 => cli_read_inputs rest1
      else if starts_with_dash arg then []
      else arg :: cli_read_inputs rest := by
  rw [cli_read_inputs.eq_def]

theorem array_push_all_cons_some {T : Type} (arr arr1 : array_of T) (x : T)
    (xs : List T) (h : array_push_all arr (x :: xs) = some arr1) :
    ∃ a, array_push arr x = some a ∧ array_push_all a xs = some arr1 := by
  rw [array_push_all_cons] at h
  cases hp : array_push arr x with
  | none => rw [hp] at h; cases h
  | some a => rw [hp] at h; exact ⟨a, rfl, h⟩

/-- The loop of `parse_arguments` against the left-to-right reading: it
returns 1 when the reading reaches a rejection and 0 otherwise, and it has
pushed the input paths read on the way. -/
theorem parse_loop_read :
    ∀ (n : Nat) (args : List String), args.length ≤ n →
      ∀ (o : compile_options) (arr arr1 : array_of String),
        o.input_paths = some arr →
        array_push_all arr (cli_read_inputs args) = some arr1 →
        ∃ o1, parse_loop args o = some ((if cli_rejected args then 1 else 0), o1) ∧
          o1.input_paths = some arr1 := by
  intro n
  induction n with
  | zero =>
    intro args hlen o arr arr1 hin hpush
    have hnil : args = [] := List.length_eq_zero.mp (Nat.le_zero.mp hlen)
    subst hnil
    have : arr1 = arr := by
      have h0 : array_push_all arr (cli_read_inputs []) = some arr := rfl
      rw [h0] at hpush
      injection hpush with hpush
      exact hpush.symm
    subst this
    exact ⟨o, rfl, hin⟩
  | succ m ih =>
    intro args hlen o arr arr1 hin hpush
    cases args with
    | nil =>
      have : arr1 = arr := by
        have h0 : array_push_all arr (cli_read_inputs []) = some arr := rfl
        rw [h0] at hpush
        injection hpush with hpush
        exact hpush.symm
      subst this
      exact ⟨o, rfl, hin⟩
    | cons arg rest =>
      rw [parse_loop_cons, cli_rejected_cons]
      rw [cli_read_inputs_cons] at hpush
      have hrest : rest.length ≤ m := by
        simp only [List.length_cons] at hlen; omega
      by_cases hi : arg = "-i"
      · rw [if_pos hi, if_pos (Or.inl hi)]
        rw [if_pos hi] at hpush
        cases rest with
        | nil =>
          have : arr1 = arr := by
            have h0 : array_push_all arr [] = some arr := rfl
            change array_push_all arr [] = some arr1 at hpush
            rw [h0] at hpush
            injection hpush with hpush
            exact hpush.symm
          subst this
          exact ⟨o, rfl, hin⟩
        | cons value rest1 =>
          change array_push_all arr (value :: cli_read_inputs rest1) = some arr1 at hpush
          obtain ⟨a, ha, hrest1⟩ := array_push_all_cons_some arr arr1 value _ hpush
          have hpi : push_input_path o value
              = some { input_paths := some a, output_path := o.output_path } := by
            rw [push_input_path_some o arr value hin, ha]
            rfl
          show ∃ o1, (match push_input_path o value with
              | none => none
              | some o1 => parse_loop rest1 o1)
            = some ((if cli_rejected rest1 then 1 else 0), o1) ∧ o1.input_paths = some arr1
          rw [hpi]
          exact ih rest1 (by simp only [List.length_cons] at hrest; omega) _ a arr1 rfl hrest1
      · rw [if_neg hi]
        rw [if_neg hi] at hpush
        by_cases ho : arg = "-o"
        · rw [if_pos ho, if_pos (Or.inr ho)]
          rw [if_pos ho] at hpush
          cases rest with
          | nil =>
            have : arr1 = arr := by
              have h0 : array_push_all arr [] = some arr := rfl
              change array_push_all arr [] = some arr1 at hpush
              rw [h0] at hpush
              injection hpush with hpush
              exact hpush.symm
            subst this
            exact ⟨o, rfl, hin⟩
          | cons value rest1 =>
            change array_push_all arr (cli_read_inputs rest1) = some arr1 at hpush
            exact ih rest1 (by simp only [List.length_cons] at hrest; omega)
              { o with output_path := some value } arr arr1 hin hpush
        · rw [if_neg ho, if_neg (show ¬ (arg = "-i" ∨ arg = "-o") from fun h => h.elim hi ho)]
          rw [if_neg ho] at hpush
          by_cases hd : starts_with_dash arg = true
          · rw [if_pos hd, if_pos hd]
            rw [if_pos hd] at hpush
            have : arr1 = arr := by
              have h0 : array_push_all arr [] = some arr := rfl
              rw [h0] at hpush
              injection hpush with hpush
              exact hpush.symm
            subst this
            exact ⟨o, rfl, hin⟩
          · rw [if_neg hd, if_neg hd]
            rw [if_neg hd] at hpush
            obtain ⟨a, ha, hrest1⟩ := array_push_all_cons_some arr arr1 arg _ hpush
            have hpi : push_input_path o arg
                = some { input_paths := some a, output_path := o.output_path } := by
              rw [push_input_path_some o arr arg hin, ha]
              rfl
            rw [hpi]
            exact ih rest hrest _ a arr1 rfl hrest1

/-- The words of accepted items followed by a stopping tail are rejected. -/
theorem cli_rejected_of_stop (items : List cli_item) (tail : List String)
    (hok : ∀ item ∈ items, item.accepted = true)
    (hstop : tail = ["-i"] ∨ tail = ["-o"] ∨
      ∃ flag rest, tail = flag :: rest ∧ starts_with_dash flag = true ∧
        flag ≠ "-i" ∧ flag ≠ "-o") :
    cli_rejected (cli_words items ++ tail) = true := by
  induction items with
  | nil =>
    show cli_rejected tail = true
    rcases hstop with h | h | ⟨flag, rest, h, hd, hi, ho⟩
    · rw [h]; decide
    · rw [h]; decide
    · rw [h, cli_rejected_cons, if_neg (show ¬ (flag = "-i" ∨ flag = "-o") from fun hh => hh.elim hi ho), if_pos hd]
  | cons item items ih =>
    have hok1 : ∀ it ∈ items, it.accepted = true :=
      fun it hit => hok it (List.mem_cons_of_mem _ hit)
    cases item with
    | input path =>
      show cli_rejected ("-i" :: path :: (cli_words items ++ tail)) = true
      rw [cli_rejected_cons, if_pos (Or.inl rfl)]
      exact ih hok1
    | output path =>
      show cli_rejected ("-o" :: path :: (cli_words items ++ tail)) = true
      rw [cli_rejected_cons, if_pos (Or.inr rfl)]
      exact ih hok1
    | bare arg =>
      have hacc : starts_with_dash arg = false := by
        have := hok (.bare arg) (List.mem_cons_self _ _)
        simpa [cli_item.accepted] using this
      obtain ⟨hni, hno⟩ := starts_with_dash_ne_i arg hacc
      show cli_rejected (arg :: (cli_words items ++ tail)) = true
      rw [cli_rejected_cons, if_neg (show ¬ (arg = "-i" ∨ arg = "-o") from fun hh => hh.elim hni hno), hacc,
        if_neg (by decide)]
      exact ih hok1

/-- Every argument list is the words of accepted items, followed by nothing
when the reading is not rejected and by a stopping tail when it is. -/
theorem cli_reading :
    ∀ (n : Nat) (args : List String), args.length ≤ n →
      ∃ items tail, (∀ item ∈ items, item.accepted = true) ∧
        args = cli_words items ++ tail ∧ cli_inputs items = cli_read_inputs args ∧
        ((cli_rejected args = false ∧ tail = []) ∨
          (cli_rejected args = true ∧
            (tail = ["-i"] ∨ tail = ["-o"] ∨
              ∃ flag rest, tail = flag :: rest ∧ starts_with_dash flag = true ∧
                flag ≠ "-i" ∧ flag ≠ "-o"))) := by
  intro n
  induction n with
  | zero =>
    intro args hlen
    have hnil : args = [] := List.length_eq_zero.mp (Nat.le_zero.mp hlen)
    subst hnil
    exact ⟨[], [], fun _ h => absurd h (List.not_mem_nil _), rfl, rfl, Or.inl ⟨rfl, rfl⟩⟩
  | succ m ih =>
    intro args hlen
    cases args with
    | nil =>
      exact ⟨[], [], fun _ h => absurd h (List.not_mem_nil _), rfl, rfl, Or.inl ⟨rfl, rfl⟩⟩
    | cons arg rest =>
      have hrest : rest.length ≤ m := by
        simp only [List.length_cons] at hlen; omega
      rw [cli_rejected_cons, cli_read_inputs_cons]
      by_cases hi : arg = "-i"
      · rw [if_pos hi, if_pos (Or.inl hi)]
        subst hi
        cases rest with
        | nil =>
          exact ⟨[], ["-i"], fun _ h => absurd h (List.not_mem_nil _), rfl, rfl,
            Or.inr ⟨rfl, Or.inl rfl⟩⟩
        | cons value rest1 =>
          obtain ⟨items, tail, hok, hargs, hinp, hcase⟩ := ih rest1
            (by simp only [List.length_cons] at hrest; omega)
          refine ⟨.input value :: items, tail, ?_, ?_, ?_, hcase⟩
          · intro item hitem
            rcases List.mem_cons.mp hitem with h | h
            · rw [h]; rfl
            · exact hok item h
          · show "-i" :: value :: rest1 = "-i" :: value :: (cli_words items ++ tail)
            rw [hargs]
          · show value :: cli_inputs items = value :: cli_read_inputs rest1
            rw [hinp]
      · rw [if_neg hi]
        by_cases ho : arg = "-o"
        · rw [if_pos ho, if_pos (Or.inr ho)]
          subst ho
          cases rest with
          | nil =>
            exact ⟨[], ["-o"], fun _ h => absurd h (List.not_mem_nil _), rfl, rfl,
              Or.inr ⟨rfl, Or.inr (Or.inl rfl)⟩⟩
          | cons value rest1 =>
            obtain ⟨items, tail, hok, hargs, hinp, hcase⟩ := ih rest1
              (by simp only [List.length_cons] at hrest; omega)
            refine ⟨.output value :: items, tail, ?_, ?_, ?_, hcase⟩
            · intro item hitem
              rcases List.mem_cons.mp hitem with h | h
              · rw [h]; rfl
              · exact hok item h
            · show "-o" :: value :: rest1 = "-o" :: value :: (cli_words items ++ tail)
              rw [hargs]
            · show cli_inputs items = cli_read_inputs rest1
              exact hinp
        · rw [if_neg ho, if_neg (show ¬ (arg = "-i" ∨ arg = "-o") from fun h => h.elim hi ho)]
          by_cases hd : starts_with_dash arg = true
          · rw [if_pos hd, if_pos hd]
            exact ⟨[], arg :: rest, fun _ h => absurd h (List.not_mem_nil _), rfl, rfl,
              Or.inr ⟨rfl, Or.inr (Or.inr ⟨arg, rest, rfl, hd, hi, ho⟩)⟩⟩
          · rw [if_neg hd, if_neg hd]
            obtain ⟨items, tail, hok, hargs, hinp, hcase⟩ := ih rest hrest
            refine ⟨.bare arg :: items, tail, ?_, ?_, ?_, hcase⟩
            · intro item hitem
              rcases List.mem_cons.mp hitem with h | h
              · rw [h]
                show (!starts_with_dash arg) = true
                rw [bool_eq_false_of_ne_true hd]
                rfl
              · exact hok item h
            · show arg :: rest = arg :: (cli_words items ++ tail)
              rw [hargs]
            · show arg :: cli_inputs items = arg :: cli_read_inputs rest
              rw [hinp]

/-- C16 (amended): for every non-empty argument list `argv[1..]` in which at
most `2139095040` input paths are read, `parse_arguments` (starting from an
empty input list) returns 1 if and only if, reading `argv[1..]` left to right
with each `-i` and `-o` in flag position consuming the next argument as its
value whatever it looks like, it reaches either a `-i` or `-o` in flag position
with no argument after it, or a flag-position argument that starts with a dash
and is neither `-i` nor `-o`; in every other case it returns 0, and the input
list then holds the paths read.  The reading reaches such an argument exactly
when the list is the words of accepted items followed by a lone `-i`, a lone
`-o`, or an unknown dash-led argument. -/
theorem parse_arguments_code (prog : String) (args : List String)
    (out0 : Option String) (hne : args ≠ [])
    (hN : (cli_read_inputs args).length ≤ CAPACITY_LIMIT) :
    (∃ code options paths,
      parse_arguments (prog :: args) (options_empty out0)
        = some (.returned (code, options)) ∧
      (code = 1 ↔ cli_rejected args = true) ∧
      (code = 0 ↔ cli_rejected args = false) ∧
      options.input_paths = some paths ∧
      paths.length = ((cli_read_inputs args).length : Int) ∧
      ∀ (i : Nat) (h : i < (cli_read_inputs args).length),
        array_get paths i = some ((cli_read_inputs args).get ⟨i, h⟩)) ∧
    (cli_rejected args = true ↔
      ∃ items tail, (∀ item ∈ items, item.accepted = true) ∧
        args = cli_words items ++ tail ∧
        (tail = ["-i"] ∨ tail = ["-o"] ∨
          ∃ flag rest, tail = flag :: rest ∧ starts_with_dash flag = true ∧
            flag ≠ "-i" ∧ flag ≠ "-o")) := by
  constructor
  · obtain ⟨paths, hp, hh⟩ := array_push_all_holds (cli_read_inputs args)
      (array_init String) [] (arrayHolds_init String) (by simpa using hN)
    rw [List.nil_append] at hh
    obtain ⟨o1, hloop, hin⟩ := parse_loop_read args.length args (le_refl _)
      (options_empty out0) (array_init String) paths rfl hp
    refine ⟨(if cli_rejected args then 1 else 0), o1, paths, ?_, ?_, ?_, hin, hh.1,
      fun i h => array_get_holds paths _ hh i h⟩
    · rw [parse_arguments_loop prog args _ hne, hloop]
      rfl
    · cases cli_rejected args <;> decide
    · cases cli_rejected args <;> decide
  · constructor
    · intro hrej
      obtain ⟨items, tail, hok, hargs, _, hcase⟩ := cli_reading args.length args (le_refl _)
      rcases hcase with ⟨h1, _⟩ | ⟨_, h2⟩
      · rw [hrej] at h1; exact absurd h1 (by decide)
      · exact ⟨items, tail, hok, hargs, h2⟩
    · rintro ⟨items, tail, hok, hargs, hstop⟩
      rw [hargs]
      exact cli_rejected_of_stop items tail hok hstop

/-- C16 (witness): `-i -x` and `-i -i` are accepted with the dash-led argument
as an input path, a lone `-` is rejected, and the empty string is accepted as
an input path. -/
theorem parse_arguments_code_witness :
    (∃ options paths, parse_arguments ["cx", "-i", "-x"] (options_empty none)
        = some (.returned (0, options)) ∧
      options.input_paths = some paths ∧ paths.length = 1 ∧
      array_get paths 0 = some "-x") ∧
    (∃ options paths, parse_arguments ["cx", "-i", "-i"] (options_empty none)
        = some (.returned (0, options)) ∧
      options.input_paths = some paths ∧ paths.length = 1 ∧
      array_get paths 0 = some "-i") ∧
    (∃ options, parse_arguments ["cx", "-"] (options_empty none)
        = some (.returned (1, options))) ∧
    (∃ options paths, parse_arguments ["cx", ""] (options_empty none)
        = some (.returned (0, options)) ∧
      options.input_paths = some paths ∧ paths.length = 1 ∧
      array_get paths 0 = some "") := by
  refine ⟨?_, ?_, ?_, ?_⟩
  · obtain ⟨⟨code, options, paths, h, _, h0, hp, hl, hg⟩, _⟩ :=
      parse_arguments_code "cx" ["-i", "-x"] none (by decide) (by decide)
    have hc : code = 0 := h0.mpr (by decide)
    subst hc
    exact ⟨options, paths, h, hp, hl, hg 0 (by decide)⟩
  · obtain ⟨⟨code, options, paths, h, _, h0, hp, hl, hg⟩, _⟩ :=
      parse_arguments_code "cx" ["-i", "-i"] none (by decide) (by decide)
    have hc : code = 0 := h0.mpr (by decide)
    subst hc
    exact ⟨options, paths, h, hp, hl, hg 0 (by decide)⟩
  · obtain ⟨⟨code, options, paths, h, h1, _, _, _, _⟩, _⟩ :=
      parse_arguments_code "cx" ["-"] none (by decide) (by decide)
    have hc : code = 1 := h1.mpr (by decide)
    subst hc
    exact ⟨options, h⟩
  · obtain ⟨⟨code, options, paths, h, _, h0, hp, hl, hg⟩, _⟩ :=
      parse_arguments_code "cx" [""] none (by decide) (by decide)
    have hc : code = 0 := h0.mpr (by decide)
    subst hc
    exact ⟨options, paths, h, hp, hl, hg 0 (by decide)⟩

/-- C16 (counterexample): with no argument after the program name nothing is
rejected, yet `parse_arguments` does not return 0: it ends the process through
`exit(0)`; and in `2139095041` bare arguments followed by a lone `-i` the push
that overflows `capacity*2` comes before the `-i`, so `parse_arguments`
returns neither 1 nor 0. -/
theorem parse_arguments_neither :
    cli_rejected [] = false ∧
    parse_arguments ["cx"] (options_empty none) = some (.exited 0) ∧
    parse_arguments ("cx" :: (List.replicate 2139095041 "a" ++ ["-i"]))
      (options_empty none) = none := by
  refine ⟨rfl, rfl, ?_⟩
  rw [parse_arguments_loop "cx" _ _
      (fun h => List.cons_ne_nil _ _ (List.append_eq_nil.mp h).2),
    parse_loop_too_many 2139095041 (by decide) ["-i"] none]
  rfl

end Cx
